import Mathlib

/-!
Verification of the nori acquire-verify-extract-install-expose pipeline.

Go strings are modelled as `List Char` (`Str`), byte slices as `List Nat`
with each byte < 256, and the filesystem (for the install/shim components)
as an association list from absolute paths, given as segment lists, to nodes.
Every definition is translated from the Go source of the repository
(internal/fetch/fetcher.go, internal/extract, internal/install,
internal/shims, internal/platform, internal/manifest).
-/

abbrev Str : Type := List Char

abbrev Bytes : Type := List Nat

/-! ## SHA-256 (crypto/sha256, as used by VerifyChecksum) -/

def w32 : Nat := 4294967296

def mask32 : Nat := 4294967295

def add32 (a b : Nat) : Nat := (a + b) % w32

def rotr32 (n x : Nat) : Nat := ((x >>> n) ||| (x <<< (32 - n))) % w32

def bsig0 (x : Nat) : Nat := rotr32 2 x ^^^ rotr32 13 x ^^^ rotr32 22 x

def bsig1 (x : Nat) : Nat := rotr32 6 x ^^^ rotr32 11 x ^^^ rotr32 25 x

def ssig0 (x : Nat) : Nat := rotr32 7 x ^^^ rotr32 18 x ^^^ (x >>> 3)

def ssig1 (x : Nat) : Nat := rotr32 17 x ^^^ rotr32 19 x ^^^ (x >>> 10)

def chF (x y z : Nat) : Nat := (x &&& y) ^^^ ((x ^^^ mask32) &&& z)

def majF (x y z : Nat) : Nat := (x &&& y) ^^^ (x &&& z) ^^^ (y &&& z)

def shaK : List Nat :=
  [1116352408, 1899447441, 3049323471, 3921009573, 961987163,
   1508970993, 2453635748, 2870763221, 3624381080, 310598401,
   607225278, 1426881987, 1925078388, 2162078206, 2614888103,
   3248222580, 3835390401, 4022224774, 264347078, 604807628,
   770255983, 1249150122, 1555081692, 1996064986, 2554220882,
   2821834349, 2952996808, 3210313671, 3336571891, 3584528711,
   113926993, 338241895, 666307205, 773529912, 1294757372,
   1396182291, 1695183700, 1986661051, 2177026350, 2456956037,
   2730485921, 2820302411, 3259730800, 3345764771, 3516065817,
   3600352804, 4094571909, 275423344, 430227734, 506948616,
   659060556, 883997877, 958139571, 1322822218, 1537002063,
   1747873779, 1955562222, 2024104815, 2227730452, 2361852424,
   2428436474, 2756734187, 3204031479, 3329325298]

def shaH0 : List Nat :=
  [1779033703, 3144134277, 1013904242, 2773480762,
   1359893119, 2600822924, 528734635, 1541459225]

def be64 (n : Nat) : Bytes :=
  [(n >>> 56) % 256, (n >>> 48) % 256, (n >>> 40) % 256, (n >>> 32) % 256,
   (n >>> 24) % 256, (n >>> 16) % 256, (n >>> 8) % 256, n % 256]

def padMessage (msg : Bytes) : Bytes :=
  let padLen := (64 + 56 - (msg.length + 1) % 64) % 64
  msg ++ [0x80] ++ List.replicate padLen 0 ++ be64 (msg.length * 8)

def chunks64Fuel : Nat → Bytes → List Bytes
  | 0, _ => []
  | _, [] => []
  | fuel + 1, b :: rest => ((b :: rest).take 64) :: chunks64Fuel fuel ((b :: rest).drop 64)

def chunks64 (l : Bytes) : List Bytes := chunks64Fuel l.length l

def word32At : Bytes → Nat
  | b0 :: b1 :: b2 :: b3 :: _ => ((b0 <<< 24) + (b1 <<< 16) + (b2 <<< 8) + b3) % w32
  | _ => 0

def msgWordsFuel : Nat → Bytes → List Nat
  | 0, _ => []
  | _, [] => []
  | fuel + 1, b :: rest => word32At (b :: rest) :: msgWordsFuel fuel ((b :: rest).drop 4)

def msgWords (l : Bytes) : List Nat := msgWordsFuel l.length l

def extendRev : Nat → List Nat → List Nat
  | 0, acc => acc
  | n + 1, acc =>
    let g : Nat → Nat := fun k => acc.getD (k - 1) 0
    extendRev n ((add32 (add32 (ssig1 (g 2)) (g 7)) (add32 (ssig0 (g 15)) (g 16))) :: acc)

def scheduleWords (chunk : Bytes) : List Nat :=
  (extendRev 48 (msgWords chunk).reverse).reverse

def compressStep (st : List Nat) (kw : Nat × Nat) : List Nat :=
  match st with
  | [a, b, c, d, e, f, g, h2] =>
    let t1 := add32 (add32 (add32 h2 (bsig1 e)) (add32 (chF e f g) kw.1)) kw.2
    let t2 := add32 (bsig0 a) (majF a b c)
    [add32 t1 t2, a, b, c, add32 d t1, e, f, g]
  | _ => st

def compressChunk (h : List Nat) (chunk : Bytes) : List Nat :=
  let final := (shaK.zip (scheduleWords chunk)).foldl compressStep h
  (h.zip final).map (fun p => add32 p.1 p.2)

def sha256 (msg : Bytes) : Bytes :=
  let hh := (chunks64 (padMessage msg)).foldl compressChunk shaH0
  hh.flatMap (fun w => [(w >>> 24) % 256, (w >>> 16) % 256, (w >>> 8) % 256, w % 256])

/-! ## Hex encoding/decoding (encoding/hex, as used by VerifyChecksum) -/

def hexDigit (n : Nat) : Char := "0123456789abcdef".toList.getD n '0'

def hexEncode (bs : Bytes) : Str := bs.flatMap (fun b => [hexDigit (b / 16), hexDigit (b % 16)])

def hexVal (c : Char) : Option Nat :=
  if '0' ≤ c ∧ c ≤ '9' then some (c.toNat - 48)
  else if 'a' ≤ c ∧ c ≤ 'f' then some (c.toNat - 87)
  else if 'A' ≤ c ∧ c ≤ 'F' then some (c.toNat - 55)
  else none

def hexDecode : Str → Option Bytes
  | [] => some []
  | [_] => none
  | c1 :: c2 :: rest =>
    match hexVal c1, hexVal c2, hexDecode rest with
    | some a, some b, some bs => some ((a * 16 + b) :: bs)
    | _, _, _ => none

/-! ## VerifyChecksum and equalBytes (internal/fetch/fetcher.go) -/

def natDigitsAux : Nat → Nat → Str → Str
  | 0, n, acc => hexDigit n :: acc
  | fuel + 1, n, acc =>
    if n < 10 then hexDigit n :: acc
    else natDigitsAux fuel (n / 10) (hexDigit (n % 10) :: acc)

def natToStr (n : Nat) : Str := natDigitsAux n n []

def equalBytes (a b : Bytes) : Bool :=
  a.length = b.length && ((a.zip b).foldl (fun r p => r ||| (p.1 ^^^ p.2)) 0 == 0)

def digestString (data : Bytes) : Str := "sha256:".toList ++ hexEncode (sha256 data)

def checksumMismatchMsg (expected : Str) (hash : Bytes) : Str :=
  "checksum mismatch: expected ".toList ++ expected ++ ", got sha256:".toList ++ hexEncode hash

def VerifyChecksum (data : Bytes) (expected : Str) : Except Str Unit :=
  if "sha256:".toList.isPrefixOf expected then
    let expectedHex := expected.drop 7
    if expectedHex.length = 64 then
      match hexDecode expectedHex with
      | none => Except.error "invalid checksum hex".toList
      | some expectedBytes =>
        let hash := sha256 data
        if equalBytes hash expectedBytes then Except.ok ()
        else Except.error (checksumMismatchMsg expected hash)
    else
      Except.error ("invalid checksum length: expected 64 hex characters, got ".toList
        ++ natToStr expectedHex.length)
  else
    Except.error "invalid checksum format: must start with sha256:".toList

/-! ## Fetcher (internal/fetch/fetcher.go)

A single HTTP attempt's outcome (transport failure, or a response with the
server-controlled status line text and body) is supplied by an oracle indexed
by attempt number; `fetchOnce` turns it into the error string the Go code
builds, and the retry loop follows `FetchWithProgress`.  The backoff sleep and
context cancellation are timing behaviour and are not modelled. -/

inductive FetchOutcome
  | transport (msg : Str)
  | response (code : Nat) (statusText : Str) (body : Bytes)
  deriving DecidableEq

def fetchOnce (o : FetchOutcome) : Except Str Bytes :=
  match o with
  | FetchOutcome.transport m => Except.error m
  | FetchOutcome.response code text body =>
    if code < 200 ∨ 300 ≤ code then
      Except.error ("HTTP ".toList ++ natToStr code ++ ": ".toList ++ text)
    else Except.ok body

/-- `strings.Contains s sub`: sub occurs contiguously in s. -/
def strContains : Str → Str → Bool
  | [], sub => sub.isPrefixOf []
  | c :: rest, sub => sub.isPrefixOf (c :: rest) || strContains rest sub

def isRetryableError (e : Str) : Bool :=
  strContains e "timeout".toList || strContains e "connection".toList ||
    strContains e "HTTP 5".toList

def maxRetries : Nat := 3

def fetchLoop (oracle : Nat → FetchOutcome) (expectedChecksum : Str) :
    Nat → Nat → Str → Except Str Bytes × Nat
  | attempt, 0, lastErr =>
    (Except.error ("failed after 3 attempts: ".toList ++ lastErr), attempt)
  | attempt, fuel + 1, _lastErr =>
    match fetchOnce (oracle attempt) with
    | Except.error e =>
      if isRetryableError e then fetchLoop oracle expectedChecksum (attempt + 1) fuel e
      else (Except.error e, attempt + 1)
    | Except.ok data =>
      match VerifyChecksum data expectedChecksum with
      | Except.error e =>
        (Except.error ("checksum verification failed: ".toList ++ e), attempt + 1)
      | Except.ok _ => (Except.ok data, attempt + 1)

def FetchWithProgress (oracle : Nat → FetchOutcome) (expectedChecksum : Str) :
    Except Str Bytes × Nat :=
  fetchLoop oracle expectedChecksum 0 maxRetries []

/-! ## Lexical path operations (path/filepath on a unix target) -/

def splitSlash : Str → List Str
  | [] => [[]]
  | c :: rest =>
    if c = '/' then [] :: splitSlash rest
    else
      match splitSlash rest with
      | s :: ss => (c :: s) :: ss
      | [] => [[c]]

def isAbsStr (s : Str) : Bool :=
  match s with
  | c :: _ => c = '/'
  | [] => false

def cleanStep (rooted : Bool) (stack : List Str) (seg : Str) : List Str :=
  if seg = [] ∨ seg = ['.'] then stack
  else if seg = ['.', '.'] then
    match stack with
    | [] => if rooted then [] else [['.', '.']]
    | top :: rest => if top = ['.', '.'] then seg :: stack else rest
  else seg :: stack

def cleanSegs (rooted : Bool) (segs : List Str) : List Str :=
  (segs.foldl (cleanStep rooted) []).reverse

/-- Join segments with '/' separators. -/
def joinSegs : List Str → Str
  | [] => []
  | [s] => s
  | s :: t :: rest => s ++ '/' :: joinSegs (t :: rest)

def renderPath (rooted : Bool) (segs : List Str) : Str :=
  if rooted then '/' :: joinSegs segs
  else if segs = [] then ['.'] else joinSegs segs

def goClean (p : Str) : Str := renderPath (isAbsStr p) (cleanSegs (isAbsStr p) (splitSlash p))

def pathSegsOf (p : Str) : List Str := cleanSegs (isAbsStr p) (splitSlash p)

def goJoin (a b : Str) : Str := goClean (a ++ '/' :: b)

def isUnderPath (dir p : Str) : Bool := (pathSegsOf dir).isPrefixOf (pathSegsOf p)

def dirOfStr (p : Str) : Str := renderPath (isAbsStr p) ((pathSegsOf p).dropLast)

def relSegsGo : List Str → List Str → Except Str Str
  | [], ts => Except.ok (joinSegs ts)
  | b :: bs, [] =>
    if b = ['.', '.'] then Except.error "can't make target relative to base".toList
    else Except.ok (joinSegs (List.replicate (bs.length + 1) ['.', '.']))
  | b :: bs, t :: ts =>
    if b = t then relSegsGo bs ts
    else if b = ['.', '.'] then Except.error "can't make target relative to base".toList
    else
      Except.ok (joinSegs (List.replicate (bs.length + 1) ['.', '.'] ++ t :: ts))

def goRel (base targ : Str) : Except Str Str :=
  let bc := goClean base
  let tc := goClean targ
  if tc = bc then Except.ok ['.']
  else
    let b := if bc = ['.'] then [] else bc
    if (isAbsStr b = isAbsStr tc : Bool) = false then
      Except.error "can't make target relative to base".toList
    else relSegsGo (pathSegsOf b) (pathSegsOf tc)

/-! ## ArchiveExtractor (internal/extract/extractor.go) -/

def sanitizePath (name destDir : Str) : Except Str Str :=
  let clean := goClean name
  if isAbsStr clean then Except.error "absolute paths are not allowed".toList
  else if strContains clean ['.', '.'] then
    Except.error "path traversal (..) is not allowed".toList
  else
    let fullPath := goJoin destDir clean
    match goRel destDir fullPath with
    | Except.error e => Except.error ("failed to resolve relative path: ".toList ++ e)
    | Except.ok rel =>
      if ['.', '.'].isPrefixOf rel then
        Except.error "path escapes destination directory".toList
      else Except.ok fullPath

structure TarEntry where
  name : Str
  isDir : Bool
  deriving DecidableEq

/-- An archive stream as produced by the stdlib tar/zip readers: the entries
successfully decoded, followed by an optional mid-stream parse error. -/
structure ArchiveStream where
  entries : List TarEntry
  parseError : Option Str
  deriving DecidableEq

/-- Processes entries in order as `extractTar`/`extractZip` do: each entry's
name is sanitized, directory entries create the directory, file entries create
the parent directory then the file.  Returns the list of paths written (in
order) and the first error, if any.  A file entry whose sanitized path is the
destination directory itself fails like `os.OpenFile` does on a directory. -/
def extractEntriesGo (destDir : Str) : List TarEntry → Option Str → List Str →
    List Str × Option Str
  | [], parseErr, acc =>
    match parseErr with
    | none => (acc, none)
    | some e => (acc, some ("failed to read tar header: ".toList ++ e))
  | ent :: rest, parseErr, acc =>
    match sanitizePath ent.name destDir with
    | Except.error e => (acc, some ("invalid path ".toList ++ ent.name ++ ": ".toList ++ e))
    | Except.ok path =>
      if ent.isDir then extractEntriesGo destDir rest parseErr (acc ++ [path])
      else if path = destDir then (acc, some "failed to create file".toList)
      else extractEntriesGo destDir rest parseErr (acc ++ [dirOfStr path, path])

/-- Models `os.RemoveAll(dir)` on the set of paths existing in the fresh
temporary namespace: every path at or under `dir` is deleted. -/
def removeAllFS (dir : Str) (paths : List Str) : List Str :=
  paths.filter (fun p => !(isUnderPath dir p))

/-- `Extractor.Extract`: verify the checksum, create the temporary directory,
dispatch on the asset type, and on any extraction error remove the temporary
directory before returning.  The filesystem component of the result is the
list of paths existing afterwards in the fresh temporary namespace (the
temporary directory itself plus everything written under it). -/
def ExtractGo (data : Bytes) (stream : ArchiveStream) (assetType : Str) (checksum : Str)
    (tmpDir : Str) : Except Str Str × List Str :=
  match VerifyChecksum data checksum with
  | Except.error e => (Except.error ("checksum verification failed: ".toList ++ e), [])
  | Except.ok _ =>
    if assetType = "tar".toList ∨ assetType = "zip".toList then
      let res := extractEntriesGo tmpDir stream.entries stream.parseError []
      match res.2 with
      | some e =>
        let failMsg := if assetType = "tar".toList then "failed to extract tar: ".toList
          else "failed to extract zip: ".toList
        (Except.error (failMsg ++ e), removeAllFS tmpDir (tmpDir :: res.1))
      | none => (Except.ok tmpDir, tmpDir :: res.1)
    else
      (Except.error ("unsupported asset type: ".toList ++ assetType),
        removeAllFS tmpDir [tmpDir])

/-! ## RootDetector (extract.DetectRoot) -/

/-- The filter-and-count step of `DetectRoot`: keep non-hidden directories and
return the sole one if there is exactly one. -/
def singleDirName (entries : List (Str × Bool)) : Option Str :=
  let dirs := (entries.filter (fun e => e.2 && !(['.'].isPrefixOf e.1))).map Prod.fst
  match dirs with
  | [d] => some d
  | _ => none

/-- `DetectRoot` over the (name, isDir) listing of the extracted directory. -/
def DetectRoot (extractDir : Str) (entries : List (Str × Bool)) : Str :=
  match singleDirName entries with
  | some d => goJoin extractDir d
  | none => extractDir

/-! ## Filesystem model for Installer and ShimManager

Paths are absolute and given as segment lists; the filesystem is an
association list from paths to nodes.  `statFS` is `os.Lstat`-like (it does
not follow symlinks); `resolveLink` models the final-component symlink
following of `os.OpenFile`. -/

inductive FNode
  | file (content : Str) (mode : Nat)
  | dir
  | symlink (target : List Str)
  deriving DecidableEq

abbrev SegPath : Type := List Str

abbrev FS : Type := List (SegPath × FNode)

def statFS : FS → SegPath → Option FNode
  | [], _ => none
  | e :: rest, p => if e.1 = p then some e.2 else statFS rest p

def keysFS (fs : FS) : List SegPath := fs.map Prod.fst

def updateFS (fs : FS) (p : SegPath) (n : FNode) : FS :=
  fs.map (fun e => if e.1 = p then (p, n) else e)

def ancestorsOf (p : SegPath) : List SegPath :=
  (List.range p.length).map (fun k => p.take (k + 1))

/-- `os.MkdirAll`: create every missing ancestor of `p` (and `p` itself) as a
directory. -/
def mkdirAllFS (fs : FS) (p : SegPath) : FS :=
  fs ++ (ancestorsOf p).filterMap
    (fun q => if q ∈ keysFS fs then none else some (q, FNode.dir))

/-- `os.Rename src dst` when nothing exists at or under `dst`: every path at
or under `src` is re-rooted at `dst`. -/
def renameFS (fs : FS) (src dst : SegPath) : FS :=
  fs.map (fun e =>
    if src.isPrefixOf e.1 then (dst ++ e.1.drop src.length, e.2) else e)

def isDirNode : FNode → Bool
  | FNode.dir => true
  | _ => false

/-- `os.ReadDir d`: the (name, isDir) pairs of the immediate children of `d`. -/
def readDirFS (fs : FS) (d : SegPath) : List (Str × Bool) :=
  (fs.filterMap (fun e =>
    if d.isPrefixOf e.1 ∧ e.1.length = d.length + 1 then
      (e.1.getLast?).map (fun nm => (nm, isDirNode e.2))
    else none)).dedup

def readDirNamesFS (fs : FS) (d : SegPath) : List Str :=
  ((readDirFS fs d).map Prod.fst).dedup

/-- `moveContents`: `os.ReadDir(src)` once, then rename each top-level entry
into `dst`.  (The cross-device copy fallback is an environmental failure mode
of `os.Rename` and is not modelled; the pure rename always succeeds.) -/
def moveContentsFS (fs : FS) (src dst : SegPath) : FS :=
  (readDirNamesFS fs src).foldl
    (fun acc e => renameFS acc (src ++ [e]) (dst ++ [e])) fs

def DetectRootFS (fs : FS) (extractDir : SegPath) : SegPath :=
  match singleDirName (readDirFS fs extractDir) with
  | some d => extractDir ++ [d]
  | none => extractDir

/-! ## Installer (internal/install/installer.go) -/

/-- The manifest fields `Install` reads: name, declared binaries, and for each
version the set of platform tags that have an asset. -/
structure ManifestM where
  name : Str
  bins : List Str
  versions : List (Str × List Str)
  deriving DecidableEq

def lookupAssoc : List (Str × List Str) → Str → Option (List Str)
  | [], _ => none
  | e :: rest, k => if e.1 = k then some e.2 else lookupAssoc rest k

def ValidateVersionM (m : ManifestM) (version platformTag : Str) : Except Str Unit :=
  match lookupAssoc m.versions version with
  | none => Except.error ("version not found: ".toList ++ version)
  | some plats =>
    if platformTag ∈ plats then Except.ok ()
    else Except.error ("platform not available: ".toList ++ platformTag)

/-- Segments of a declared relative binary path, as `filepath.Join` appends
them to a directory (faithful for bins without parent-directory segments). -/
def binSegs (bin : Str) : List Str := pathSegsOf bin

def binMissingMsg (bin : Str) : Str :=
  "bin \"".toList ++ bin ++ "\" not found in extracted archive".toList

/-- The bins loop of `Install`: the first declared binary that does not exist
under the package root, if any. -/
def firstMissing (fs : FS) (root : SegPath) (bins : List Str) : Option Str :=
  bins.find? (fun b => (statFS fs (root ++ binSegs b)).isNone)

def execBits : Nat := 73

def chmodStep (installPath : SegPath) (fs : FS) (bin : Str) : FS :=
  let p := installPath ++ binSegs bin
  match statFS fs p with
  | some (FNode.file c m) =>
    if m &&& execBits = 0 then updateFS fs p (FNode.file c (m ||| execBits)) else fs
  | _ => fs

/-- The POSIX chmod loop of `Install` (on windows the loop is skipped). -/
def chmodBins (fs : FS) (installPath : SegPath) (bins : List Str) : FS :=
  bins.foldl (chmodStep installPath) fs

/-- `platform.InstallPath pkg version platformTag` under the nori root. -/
def installPathSegs (noriRoot : SegPath) (pkg version platformTag : Str) : SegPath :=
  noriRoot ++ ["installs".toList, pkg, version, platformTag]

/-- `Installer.Install` on a POSIX target: validate version/platform, detect
the archive root, check every declared binary exists, create the install
directory, move the root's contents into it, and add executable bits. -/
def InstallGo (fs : FS) (m : ManifestM) (version platformTag : Str)
    (extractDir noriRoot : SegPath) : Except Str SegPath × FS :=
  match ValidateVersionM m version platformTag with
  | Except.error e => (Except.error e, fs)
  | Except.ok _ =>
    let rootDir := DetectRootFS fs extractDir
    match firstMissing fs rootDir m.bins with
    | some bin => (Except.error (binMissingMsg bin), fs)
    | none =>
      let installPath := installPathSegs noriRoot m.name version platformTag
      let fs1 := mkdirAllFS fs installPath
      let fs2 := moveContentsFS fs1 rootDir installPath
      let fs3 := chmodBins fs2 installPath m.bins
      (Except.ok installPath, fs3)

/-! ## ShimManager (internal/shims/shims.go), unix branch -/

def resolveLink (fs : FS) : Nat → SegPath → SegPath
  | 0, p => p
  | fuel + 1, p =>
    match statFS fs p with
    | some (FNode.symlink t) => resolveLink fs fuel t
    | _ => p

/-- `os.Symlink target linkPath`: fails (EEXIST) if anything exists at
`linkPath`, even a dangling symlink. -/
def symlinkFS (fs : FS) (target : SegPath) (linkPath : SegPath) : Except Unit FS :=
  match statFS fs linkPath with
  | some _ => Except.error ()
  | none => Except.ok (fs ++ [(linkPath, FNode.symlink target)])

/-- `os.WriteFile p content mode`: opens with O_CREATE, O_WRONLY and O_TRUNC,
following a symlink at the final component; an existing file keeps its mode. -/
def writeFileFS (fs : FS) (p : SegPath) (content : Str) (mode : Nat) : Except Str FS :=
  let rp := resolveLink fs 40 p
  match statFS fs rp with
  | some (FNode.file _ oldMode) => Except.ok (updateFS fs rp (FNode.file content oldMode))
  | some _ => Except.error "is a directory".toList
  | none => Except.ok (fs ++ [(rp, FNode.file content mode)])

def renderSegPath (p : SegPath) : Str := '/' :: List.intercalate ['/'] p

def wrapperScript (targetPath : SegPath) : Str :=
  "#!/bin/sh\nexec \"".toList ++ renderSegPath targetPath ++ "\" \"$@\"\n".toList

/-- `createUnixShim`: try a symlink first; on any failure fall back to writing
a wrapper script at the shim path (0755 = 493). -/
def createUnixShim (fs : FS) (shimsDir : SegPath) (binName : Str) (targetPath : SegPath) :
    Except Str FS :=
  let shimPath := shimsDir ++ [binName]
  match symlinkFS fs targetPath shimPath with
  | Except.ok fs' => Except.ok fs'
  | Except.error _ => writeFileFS fs shimPath (wrapperScript targetPath) 493

/-- `Shims.CreateShim` on a non-windows target: ensure the shims directory
exists, then create the unix shim. -/
def CreateShimUnix (fs : FS) (shimsDir : SegPath) (binName : Str) (targetPath : SegPath) :
    Except Str FS :=
  createUnixShim (mkdirAllFS fs shimsDir) shimsDir binName targetPath

/-! ## Concrete scenarios used in counterexamples and witnesses -/

/-- Oracle for the C3 counterexample: attempt 0 gets a 404 whose status line
text contains "connection"; attempt 1 gets a 200 with an empty body. -/
def c3Oracle : Nat → FetchOutcome :=
  fun n =>
    if n = 0 then FetchOutcome.response 404 "404 Not Found (connection reset)".toList []
    else FetchOutcome.response 200 "200 OK".toList []

def shimTargetPath : SegPath := ["tmp".toList, "bin".toList, "test".toList]

def shimShimsDir : SegPath := ["home".toList, "u".toList, ".nori".toList, "shims".toList]

def shimFs0 : FS :=
  [(["tmp".toList], FNode.dir), (["tmp".toList, "bin".toList], FNode.dir),
   (shimTargetPath, FNode.file "#!/bin/sh\necho test".toList 493)]

def demoXdir : SegPath := ["tmp".toList, "extract".toList]

def demoNroot : SegPath := ["home".toList, "u".toList, ".nori".toList]

/-- Scenario E: an extracted tree with a single top-level directory
pkg-1.0.0 containing bin/tool (mode 0644, not executable). -/
def demoFs : FS :=
  [(["tmp".toList], FNode.dir), (demoXdir, FNode.dir),
   (demoXdir ++ ["pkg-1.0.0".toList], FNode.dir),
   (demoXdir ++ ["pkg-1.0.0".toList, "bin".toList], FNode.dir),
   (demoXdir ++ ["pkg-1.0.0".toList, "bin".toList, "tool".toList],
     FNode.file "ELF".toList 420)]

def demoMf : ManifestM :=
  ManifestM.mk "testpkg".toList ["bin/tool".toList]
    [("1.0.0".toList, ["linux-amd64".toList])]

/-! # Theorems -/

/-! ## Checksum verification (C4) -/

theorem nat_lor_eq_zero {a b : Nat} : a ||| b = 0 ↔ a = 0 ∧ b = 0 := by
  constructor
  · intro h
    have ha : a = 0 := by
      apply Nat.eq_of_testBit_eq
      intro i
      have hb := congrArg (fun n => n.testBit i) h
      simp only [Nat.testBit_lor] at hb
      simp only [Nat.zero_testBit] at hb ⊢
      exact (Bool.or_eq_false_iff.mp hb).1
    have hb : b = 0 := by
      apply Nat.eq_of_testBit_eq
      intro i
      have hb := congrArg (fun n => n.testBit i) h
      simp only [Nat.testBit_lor] at hb
      simp only [Nat.zero_testBit] at hb ⊢
      exact (Bool.or_eq_false_iff.mp hb).2
    exact ⟨ha, hb⟩
  · rintro ⟨rfl, rfl⟩
    rfl

theorem foldl_or_xor_eq_zero (l : List (Nat × Nat)) (x : Nat) :
    l.foldl (fun r p => r ||| (p.1 ^^^ p.2)) x = 0 ↔ x = 0 ∧ ∀ p ∈ l, p.1 = p.2 := by
  induction l generalizing x with
  | nil => simp
  | cons hd tl ih =>
    simp only [List.foldl_cons, ih, nat_lor_eq_zero, Nat.xor_eq_zero, List.mem_cons]
    constructor
    · rintro ⟨⟨hx, hhd⟩, htl⟩
      exact ⟨hx, fun p hp => hp.elim (fun he => he ▸ hhd) (htl p)⟩
    · rintro ⟨hx, hall⟩
      exact ⟨⟨hx, hall hd (Or.inl rfl)⟩, fun p hp => hall p (Or.inr hp)⟩

theorem eq_of_zip_eq : ∀ (a b : List Nat), a.length = b.length →
    (∀ p ∈ a.zip b, p.1 = p.2) → a = b
  | [], [], _, _ => rfl
  | [], _ :: _, h, _ => by simp at h
  | _ :: _, [], h, _ => by simp at h
  | x :: xs, y :: ys, h, hall => by
    have hx : x = y := hall (x, y) (by simp [List.zip_cons_cons])
    have : xs = ys := eq_of_zip_eq xs ys (by simpa using h)
      (fun p hp => hall p (by simp [List.zip_cons_cons, hp]))
    rw [hx, this]

theorem mem_zip_same : ∀ (a : List Nat) (p : Nat × Nat), p ∈ a.zip a → p.1 = p.2
  | [], p, hp => by simp at hp
  | x :: xs, p, hp => by
    rw [List.zip_cons_cons] at hp
    rcases List.mem_cons.mp hp with h | h
    · rw [h]
    · exact mem_zip_same xs p h

theorem equalBytes_iff (a b : Bytes) : equalBytes a b = true ↔ a = b := by
  unfold equalBytes
  rw [Bool.and_eq_true, decide_eq_true_eq, beq_iff_eq, foldl_or_xor_eq_zero]
  constructor
  · rintro ⟨hlen, _, hall⟩
    exact eq_of_zip_eq a b hlen hall
  · rintro rfl
    exact ⟨rfl, rfl, mem_zip_same a⟩

theorem compressStep_length (st : List Nat) (kw : Nat × Nat) :
    (compressStep st kw).length = st.length := by
  unfold compressStep
  split <;> simp

theorem foldl_compressStep_length (l : List (Nat × Nat)) (h : List Nat) :
    (l.foldl compressStep h).length = h.length := by
  induction l generalizing h with
  | nil => rfl
  | cons hd tl ih => rw [List.foldl_cons, ih, compressStep_length]

theorem compressChunk_length (h : List Nat) (chunk : Bytes) :
    (compressChunk h chunk).length = h.length := by
  unfold compressChunk
  simp [foldl_compressStep_length]

theorem foldl_compressChunk_length (cs : List Bytes) (h : List Nat) :
    (cs.foldl compressChunk h).length = h.length := by
  induction cs generalizing h with
  | nil => rfl
  | cons hd tl ih => rw [List.foldl_cons, ih, compressChunk_length]

theorem length_flatMap_four (l : List Nat) :
    (l.flatMap (fun w => [(w >>> 24) % 256, (w >>> 16) % 256, (w >>> 8) % 256, w % 256])).length
      = 4 * l.length := by
  induction l with
  | nil => rfl
  | cons hd tl ih => simp [List.flatMap_cons, ih]; ring

theorem sha256_length (msg : Bytes) : (sha256 msg).length = 32 := by
  unfold sha256
  rw [length_flatMap_four, foldl_compressChunk_length]
  rfl

theorem sha256_lt (msg : Bytes) : ∀ b ∈ sha256 msg, b < 256 := by
  unfold sha256
  intro b hb
  simp only [List.mem_flatMap, List.mem_cons, List.not_mem_nil, or_false] at hb
  obtain ⟨w, _, hw⟩ := hb
  rcases hw with h | h | h | h <;> omega

theorem hexVal_hexDigit : ∀ n < 16, hexVal (hexDigit n) = some n := by decide

theorem hexDecode_hexEncode (bs : Bytes) (h : ∀ b ∈ bs, b < 256) :
    hexDecode (hexEncode bs) = some bs := by
  induction bs with
  | nil => rfl
  | cons b tl ih =>
    have hb : b < 256 := h b (List.mem_cons_self _ _)
    have h1 : hexVal (hexDigit (b / 16)) = some (b / 16) := hexVal_hexDigit _ (by omega)
    have h2 : hexVal (hexDigit (b % 16)) = some (b % 16) := hexVal_hexDigit _ (by omega)
    have ih' := ih (fun x hx => h x (List.mem_cons_of_mem _ hx))
    rw [hexEncode, List.flatMap_cons]
    show hexDecode (hexDigit (b / 16) :: hexDigit (b % 16) :: tl.flatMap _) = _
    rw [hexDecode, h1, h2]
    rw [hexEncode] at ih'
    rw [ih']
    show some ((b / 16 * 16 + b % 16) :: tl) = some (b :: tl)
    have : b / 16 * 16 + b % 16 = b := by omega
    rw [this]

theorem hexEncode_length (bs : Bytes) : (hexEncode bs).length = 2 * bs.length := by
  induction bs with
  | nil => rfl
  | cons b tl ih =>
    rw [hexEncode, List.flatMap_cons] at *
    simp at ih ⊢
    omega

theorem sha256Prefix_isPrefixOf (x : Str) :
    "sha256:".toList.isPrefixOf ("sha256:".toList ++ x) = true := by
  rw [List.isPrefixOf_iff_prefix]
  exact List.prefix_append _ _

theorem drop7_sha256Prefix (x : Str) : ("sha256:".toList ++ x).drop 7 = x := by
  have h7 : ("sha256:".toList).length = 7 := rfl
  rw [← h7]
  exact List.drop_left _ _

/-- C4: for every byte content C, VerifyChecksum accepts the correctly
formatted sha256 digest string of C; and for every well-formed digest string
D' whose decoded bytes differ from sha256(C), VerifyChecksum fails with the
mismatch error reporting both the expected string and the actual digest. -/
theorem verifyChecksum_ok_and_mismatch (C : Bytes) :
    VerifyChecksum C (digestString C) = Except.ok () ∧
    ∀ (D' : Str) (bs : Bytes),
      "sha256:".toList.isPrefixOf D' = true →
      (D'.drop 7).length = 64 →
      hexDecode (D'.drop 7) = some bs →
      bs ≠ sha256 C →
      VerifyChecksum C D' = Except.error (checksumMismatchMsg D' (sha256 C)) := by
  constructor
  · have hdec := hexDecode_hexEncode (sha256 C) (sha256_lt C)
    have hlen : (hexEncode (sha256 C)).length = 64 := by
      rw [hexEncode_length, sha256_length]
    simp [VerifyChecksum, digestString, sha256Prefix_isPrefixOf, drop7_sha256Prefix,
      hlen, hdec, equalBytes_iff]
  · intro D' bs hpre hlen hdec hne
    have hneq : equalBytes (sha256 C) bs = false :=
      Bool.eq_false_iff.mpr (fun h => hne (equalBytes_iff _ _ |>.mp h).symm)
    have hpre' : "sha256:".toList <+: D' := List.isPrefixOf_iff_prefix.mp hpre
    simp [VerifyChecksum, hpre, hlen, hdec, hneq]
    intro hcon
    exact absurd hpre' hcon

theorem verifyChecksum_witness :
    VerifyChecksum [] (digestString []) = Except.ok () ∧
    VerifyChecksum [] ("sha256:".toList ++ List.replicate 64 '0') =
      Except.error (checksumMismatchMsg ("sha256:".toList ++ List.replicate 64 '0')
        (sha256 [])) := by
  have h := verifyChecksum_ok_and_mismatch []
  exact ⟨h.1, h.2 _ (List.replicate 32 0) (by decide) (by decide) (by decide) (by decide)⟩

/-! ## Fetcher retry policy (C3) -/

theorem strContains_of_isPrefixOf (s sub : Str) (h : sub.isPrefixOf s = true) :
    strContains s sub = true := by
  cases s with
  | nil => exact h
  | cons c rest => rw [strContains, h, Bool.true_or]

set_option maxRecDepth 4000 in
theorem natToStr_5xx : ∀ code, code < 600 → 500 ≤ code → (natToStr code).take 1 = ['5'] := by
  decide

theorem fetchLoop_attempts (oracle : Nat → FetchOutcome) (ck : Str) :
    ∀ (fuel attempt : Nat) (le : Str),
      (fetchLoop oracle ck attempt fuel le).2 ≤ attempt + fuel := by
  intro fuel
  induction fuel with
  | zero =>
    intro attempt le
    simp [fetchLoop]
  | succ n ih =>
    intro attempt le
    simp only [fetchLoop]
    cases hf : fetchOnce (oracle attempt) with
    | error e =>
      by_cases hr : isRetryableError e = true
      · simp only [hr, if_true]
        have := ih (attempt + 1) e
        omega
      · simp only [Bool.not_eq_true] at hr
        simp only [hr, Bool.false_eq_true, if_false]
        omega
    | ok data =>
      cases hv : VerifyChecksum data ck with
      | error e => simp only [hv]; omega
      | ok u => simp only [hv]; omega

/-- C3 (amended): the fetch makes at most 3 attempts; a first-attempt error
that the substring heuristic (`timeout`, `connection`, `HTTP 5` in the error
text) classifies as non-retryable is returned immediately after 1 attempt; a
checksum failure after a successful transfer is returned immediately after 1
attempt; three consecutive retryable failures exhaust the retries and wrap the
last error, reporting 3 attempts; every 5xx response yields a retryable error;
and a 404 response with the standard status text yields a non-retryable error.
(The claim's "retried only on transport errors or 5xx" holds only for standard
status texts: the heuristic matches the server-controlled status line, see the
counterexample.) -/
theorem fetchRetryPolicy_amended (oracle : Nat → FetchOutcome) (checksum : Str) :
    (FetchWithProgress oracle checksum).2 ≤ 3 ∧
    (∀ e, fetchOnce (oracle 0) = Except.error e → isRetryableError e = false →
      FetchWithProgress oracle checksum = (Except.error e, 1)) ∧
    (∀ data e, fetchOnce (oracle 0) = Except.ok data →
      VerifyChecksum data checksum = Except.error e →
      FetchWithProgress oracle checksum =
        (Except.error ("checksum verification failed: ".toList ++ e), 1)) ∧
    (∀ es : Nat → Str,
      (∀ i, i < 3 → fetchOnce (oracle i) = Except.error (es i) ∧
        isRetryableError (es i) = true) →
      FetchWithProgress oracle checksum =
        (Except.error ("failed after 3 attempts: ".toList ++ es 2), 3)) ∧
    (∀ code text body, 500 ≤ code → code < 600 →
      ∃ e, fetchOnce (FetchOutcome.response code text body) = Except.error e ∧
        isRetryableError e = true) ∧
    (∀ body : Bytes, ∃ e,
      fetchOnce (FetchOutcome.response 404 "404 Not Found".toList body) = Except.error e ∧
        isRetryableError e = false) := by
  refine ⟨?_, ?_, ?_, ?_, ?_, ?_⟩
  · exact fetchLoop_attempts oracle checksum 3 0 []
  · intro e hf hr
    simp only [FetchWithProgress, fetchLoop, hf, hr, Bool.false_eq_true, if_false]
  · intro data e hf hv
    simp only [FetchWithProgress, fetchLoop, hf, hv]
  · intro es h
    have h0 := h 0 (by omega)
    have h1 := h 1 (by omega)
    have h2 := h 2 (by omega)
    simp only [FetchWithProgress, fetchLoop, h0.1, h0.2, h1.1, h1.2, h2.1, h2.2, if_true]
  · intro code text body h5 h6
    refine ⟨"HTTP ".toList ++ natToStr code ++ ": ".toList ++ text, ?_, ?_⟩
    · simp only [fetchOnce, if_pos (Or.inr (by omega : 300 ≤ code))]
    · have htake := natToStr_5xx code h6 h5
      have hsplit : natToStr code = '5' :: (natToStr code).drop 1 := by
        conv_lhs => rw [← List.take_append_drop 1 (natToStr code)]
        rw [htake]
        rfl
      apply Bool.or_eq_true_iff.mpr
      right
      apply strContains_of_isPrefixOf
      rw [List.isPrefixOf_iff_prefix, hsplit]
      show "HTTP 5".toList <+: "HTTP ".toList ++ ('5' :: _) ++ _
      refine ⟨(natToStr code).drop 1 ++ ": ".toList ++ text, ?_⟩
      simp
  · intro body
    refine ⟨"HTTP ".toList ++ natToStr 404 ++ ": ".toList ++ "404 Not Found".toList,
      rfl, by decide⟩

theorem fetchRetryPolicy_witness :
    FetchWithProgress (fun _ => FetchOutcome.transport "timeout".toList) [] =
      (Except.error ("failed after 3 attempts: ".toList ++ "timeout".toList), 3) := by
  have hr : isRetryableError "timeout".toList = true := by decide
  exact (fetchRetryPolicy_amended (fun _ => FetchOutcome.transport "timeout".toList)
    []).2.2.2.1 (fun _ => "timeout".toList) (fun i _ => ⟨rfl, hr⟩)

set_option maxRecDepth 20000 in
/-- C3 counterexample: a 404 response (non-2xx, non-5xx) whose status text
contains "connection" is retried rather than returned immediately, because
`isRetryableError` substring-matches the error text which embeds the
server-controlled status line; the fetch then succeeds on the second attempt,
with 2 attempts made in total. -/
theorem fetch404Retried_counterexample :
    c3Oracle 0 = FetchOutcome.response 404 "404 Not Found (connection reset)".toList [] ∧
    FetchWithProgress c3Oracle (digestString []) = (Except.ok [], 2) := by
  exact ⟨rfl, rfl⟩

/-! ## Path sanitization lemmas (C1, C2, C9, C10) -/

theorem splitSlash_ne_nil (s : Str) : splitSlash s ≠ [] := by
  cases s with
  | nil => simp [splitSlash]
  | cons c rest =>
    rw [splitSlash]
    by_cases h : c = '/'
    · simp [h]
    · rw [if_neg h]
      cases hs : splitSlash rest with
      | nil => simp
      | cons s ss => simp

theorem splitSlash_append (a b : Str) :
    splitSlash (a ++ '/' :: b) = splitSlash a ++ splitSlash b := by
  induction a with
  | nil => rfl
  | cons c a' ih =>
    by_cases h : c = '/'
    · show splitSlash (c :: (a' ++ '/' :: b)) = splitSlash (c :: a') ++ splitSlash b
      rw [splitSlash, if_pos h, ih, splitSlash, if_pos h]
      rfl
    · show splitSlash (c :: (a' ++ '/' :: b)) = splitSlash (c :: a') ++ splitSlash b
      rw [splitSlash, if_neg h, ih]
      cases hs : splitSlash a' with
      | nil => exact absurd hs (splitSlash_ne_nil a')
      | cons s ss =>
        rw [splitSlash, if_neg h, hs]
        rfl

theorem splitSlash_no_slash (s : Str) : ∀ seg ∈ splitSlash s, '/' ∉ seg := by
  induction s with
  | nil =>
    intro seg hseg
    simp [splitSlash] at hseg
    simp [hseg]
  | cons c rest ih =>
    intro seg hseg
    rw [splitSlash] at hseg
    by_cases h : c = '/'
    · rw [if_pos h] at hseg
      rcases List.mem_cons.mp hseg with he | ht
      · simp [he]
      · exact ih seg ht
    · rw [if_neg h] at hseg
      cases hs : splitSlash rest with
      | nil => exact absurd hs (splitSlash_ne_nil rest)
      | cons s ss =>
        rw [hs] at hseg
        rcases List.mem_cons.mp hseg with he | ht
        · subst he
          intro hmem
          rcases List.mem_cons.mp hmem with h1 | h2
          · exact h h1.symm
          · exact ih s (hs ▸ List.mem_cons_self _ _) h2
        · exact ih seg (hs ▸ List.mem_cons_of_mem _ ht)

theorem cleanStep_push (r : Bool) (st : List Str) (seg : Str)
    (h1 : seg ≠ []) (h2 : seg ≠ ['.']) (h3 : seg ≠ ['.', '.']) :
    cleanStep r st seg = seg :: st := by
  unfold cleanStep
  rw [if_neg (by simp [h1, h2]), if_neg h3]

theorem foldl_cleanStep_good (r : Bool) (segs : List Str)
    (h : ∀ s ∈ segs, s ≠ [] ∧ s ≠ ['.'] ∧ s ≠ ['.', '.']) :
    ∀ st, segs.foldl (cleanStep r) st = segs.reverse ++ st := by
  induction segs with
  | nil => intro st; rfl
  | cons hd tl ih =>
    intro st
    have hh := h hd (List.mem_cons_self _ _)
    rw [List.foldl_cons, cleanStep_push r st hd hh.1 hh.2.1 hh.2.2,
      ih (fun s hs => h s (List.mem_cons_of_mem _ hs)) (hd :: st)]
    simp

theorem cleanStep_inv (r : Bool) (st : List Str) (seg : Str)
    (hst : ∀ x ∈ st, x ≠ [] ∧ x ≠ ['.'] ∧ ('/' ∉ x)) (hseg : '/' ∉ seg) :
    ∀ x ∈ cleanStep r st seg, x ≠ [] ∧ x ≠ ['.'] ∧ ('/' ∉ x) := by
  intro x hx
  unfold cleanStep at hx
  by_cases h1 : seg = [] ∨ seg = ['.']
  · rw [if_pos h1] at hx
    exact hst x hx
  · rw [if_neg h1] at hx
    by_cases h2 : seg = ['.', '.']
    · rw [if_pos h2] at hx
      cases st with
      | nil =>
        have hx' : x ∈ (if r = true then ([] : List Str) else [['.', '.']]) := hx
        by_cases hr : r = true
        · rw [if_pos hr] at hx'
          simp at hx'
        · rw [if_neg hr] at hx'
          simp at hx'
          simp [hx']
      | cons top rest =>
        have hx' : x ∈ (if top = ['.', '.'] then seg :: top :: rest else rest) := hx
        by_cases ht : top = ['.', '.']
        · rw [if_pos ht] at hx'
          rcases List.mem_cons.mp hx' with he | hm
          · subst he; subst h2; exact ⟨by simp, by simp, by simp⟩
          · exact hst x hm
        · rw [if_neg ht] at hx'
          exact hst x (List.mem_cons_of_mem _ hx')
    · rw [if_neg h2] at hx
      rcases List.mem_cons.mp hx with he | hm
      · subst he
        push_neg at h1
        exact ⟨h1.1, h1.2, hseg⟩
      · exact hst x hm

theorem cleanSegs_inv (r : Bool) (segs : List Str) (hns : ∀ s ∈ segs, '/' ∉ s) :
    ∀ x ∈ cleanSegs r segs, x ≠ [] ∧ x ≠ ['.'] ∧ ('/' ∉ x) := by
  have main : ∀ (l : List Str) (st : List Str),
      (∀ x ∈ st, x ≠ [] ∧ x ≠ ['.'] ∧ ('/' ∉ x)) → (∀ s ∈ l, '/' ∉ s) →
      ∀ x ∈ l.foldl (cleanStep r) st, x ≠ [] ∧ x ≠ ['.'] ∧ ('/' ∉ x) := by
    intro l
    induction l with
    | nil => intro st hst _ x hx; exact hst x hx
    | cons hd tl ih =>
      intro st hst hl x hx
      rw [List.foldl_cons] at hx
      exact ih (cleanStep r st hd)
        (cleanStep_inv r st hd hst (hl hd (List.mem_cons_self _ _)))
        (fun s hs => hl s (List.mem_cons_of_mem _ hs)) x hx
  intro x hx
  rw [cleanSegs, List.mem_reverse] at hx
  exact main segs [] (by simp) hns x hx

theorem cleanStep_rooted_no_dotdot (st : List Str) (seg : Str)
    (hst : ['.', '.'] ∉ st) : ['.', '.'] ∉ cleanStep true st seg := by
  unfold cleanStep
  by_cases h1 : seg = [] ∨ seg = ['.']
  · rw [if_pos h1]; exact hst
  · rw [if_neg h1]
    by_cases h2 : seg = ['.', '.']
    · rw [if_pos h2]
      cases st with
      | nil =>
        show ['.', '.'] ∉ (if true = true then ([] : List Str) else [['.', '.']])
        simp
      | cons top rest =>
        show ['.', '.'] ∉ (if top = ['.', '.'] then seg :: top :: rest else rest)
        by_cases ht : top = ['.', '.']
        · exact absurd (ht ▸ List.mem_cons_self top rest) hst
        · rw [if_neg ht]
          exact fun hm => hst (List.mem_cons_of_mem _ hm)
    · rw [if_neg h2]
      intro hm
      rcases List.mem_cons.mp hm with he | hmm
      · exact h2 he.symm
      · exact hst hmm

theorem cleanSegs_rooted_no_dotdot (segs : List Str) : ['.', '.'] ∉ cleanSegs true segs := by
  have main : ∀ (l : List Str) (st : List Str), ['.', '.'] ∉ st →
      ['.', '.'] ∉ l.foldl (cleanStep true) st := by
    intro l
    induction l with
    | nil => intro st hst; exact hst
    | cons hd tl ih =>
      intro st hst
      rw [List.foldl_cons]
      exact ih _ (cleanStep_rooted_no_dotdot st hd hst)
  rw [cleanSegs, List.mem_reverse]
  exact main segs [] (by simp)

theorem splitSlash_no_slash_id (s : Str) (h : '/' ∉ s) : splitSlash s = [s] := by
  induction s with
  | nil => rfl
  | cons c rest ih =>
    have hc : c ≠ '/' := fun hc => h (hc ▸ List.mem_cons_self _ _)
    rw [splitSlash, if_neg hc, ih (fun hm => h (List.mem_cons_of_mem _ hm))]

theorem splitSlash_joinSegs : ∀ (segs : List Str), segs ≠ [] →
    (∀ s ∈ segs, '/' ∉ s) → splitSlash (joinSegs segs) = segs
  | [], h, _ => absurd rfl h
  | [s], _, hns => by
    rw [joinSegs, splitSlash_no_slash_id s (hns s (List.mem_cons_self _ _))]
  | s :: t :: rest, _, hns => by
    rw [joinSegs, splitSlash_append,
      splitSlash_no_slash_id s (hns s (List.mem_cons_self _ _)),
      splitSlash_joinSegs (t :: rest) (by simp)
        (fun x hx => hns x (List.mem_cons_of_mem _ hx))]
    rfl

theorem isAbs_joinSegs_cons (s : Str) (rest : List Str) (hs : s ≠ []) (hns : '/' ∉ s) :
    isAbsStr (joinSegs (s :: rest)) = false := by
  cases s with
  | nil => exact absurd rfl hs
  | cons c s' =>
    have hc : c ≠ '/' := fun hc => hns (hc ▸ List.mem_cons_self _ _)
    cases rest with
    | nil =>
      rw [joinSegs, isAbsStr]
      simp [hc]
    | cons t r =>
      rw [joinSegs]
      show isAbsStr (c :: (s' ++ '/' :: joinSegs (t :: r))) = false
      rw [isAbsStr]
      simp [hc]

theorem strContains_iff_occurs (s sub : Str) : strContains s sub = true ↔ sub <:+: s := by
  induction s with
  | nil =>
    rw [strContains, List.isPrefixOf_iff_prefix]
    constructor
    · intro h
      exact h.isInfix
    · intro h
      rw [List.infix_nil] at h
      simp [h]
  | cons c rest ih =>
    rw [strContains, Bool.or_eq_true, ih, List.isPrefixOf_iff_prefix]
    exact (List.infix_cons_iff).symm

theorem pathSegsOf_renderPath (r : Bool) (segs : List Str)
    (h : ∀ s ∈ segs, s ≠ [] ∧ s ≠ ['.'] ∧ s ≠ ['.', '.'] ∧ '/' ∉ s) :
    pathSegsOf (renderPath r segs) = segs := by
  cases r with
  | true =>
    have hr : renderPath true segs = '/' :: joinSegs segs := by rw [renderPath]; simp
    rw [hr, pathSegsOf]
    have habs : isAbsStr ('/' :: joinSegs segs) = true := by rw [isAbsStr]; simp
    rw [habs]
    have hsplit : splitSlash ('/' :: joinSegs segs) = [] :: splitSlash (joinSegs segs) := by
      rw [splitSlash]; simp
    rw [hsplit]
    cases segs with
    | nil => rfl
    | cons s rest =>
      rw [splitSlash_joinSegs (s :: rest) (by simp) (fun x hx => (h x hx).2.2.2)]
      rw [cleanSegs]
      have hskip : cleanStep true [] ([] : Str) = [] := rfl
      rw [List.foldl_cons, hskip,
        foldl_cleanStep_good true (s :: rest)
          (fun x hx => ⟨(h x hx).1, (h x hx).2.1, (h x hx).2.2.1⟩) []]
      simp
  | false =>
    cases segs with
    | nil => rfl
    | cons s rest =>
      have hs := h s (List.mem_cons_self _ _)
      have hr : renderPath false (s :: rest) = joinSegs (s :: rest) := by
        rw [renderPath]; simp
      rw [hr, pathSegsOf, isAbs_joinSegs_cons s rest hs.1 hs.2.2.2,
        splitSlash_joinSegs (s :: rest) (by simp) (fun x hx => (h x hx).2.2.2),
        cleanSegs, foldl_cleanStep_good false (s :: rest)
          (fun x hx => ⟨(h x hx).1, (h x hx).2.1, (h x hx).2.2.1⟩) []]
      simp

theorem infix_joinSegs : ∀ (segs : List Str) (s : Str), s ∈ segs → s <:+: joinSegs segs
  | [], s, h => absurd h (List.not_mem_nil s)
  | [x], s, h => by
    simp at h
    subst h
    rw [joinSegs]
  | x :: t :: rest, s, h => by
    rw [joinSegs]
    rcases List.mem_cons.mp h with he | hm
    · subst he
      exact (List.prefix_append s ('/' :: joinSegs (t :: rest))).isInfix
    · have hsuf : joinSegs (t :: rest) <:+ x ++ '/' :: joinSegs (t :: rest) :=
        ⟨x ++ ['/'], by simp⟩
      exact (infix_joinSegs (t :: rest) s hm).trans hsuf.isInfix

theorem isAbs_renderPath_true (segs : List Str) :
    isAbsStr (renderPath true segs) = true := by
  rw [renderPath]
  simp [isAbsStr]

theorem clean_relative_segs (name : Str)
    (hnabs : isAbsStr (goClean name) = false)
    (hinf : strContains (goClean name) ['.', '.'] = false) :
    isAbsStr name = false ∧
    goClean name = renderPath false (cleanSegs false (splitSlash name)) ∧
    pathSegsOf (goClean name) = cleanSegs false (splitSlash name) ∧
    (∀ s ∈ cleanSegs false (splitSlash name),
      s ≠ [] ∧ s ≠ ['.'] ∧ s ≠ ['.', '.'] ∧ '/' ∉ s) := by
  have hr : isAbsStr name = false := by
    by_cases h : isAbsStr name = true
    · rw [goClean, h] at hnabs
      rw [isAbs_renderPath_true] at hnabs
      cases hnabs
    · simpa using h
  have hgc : goClean name = renderPath false (cleanSegs false (splitSlash name)) := by
    rw [goClean, hr]
  have hinv := cleanSegs_inv false (splitSlash name) (splitSlash_no_slash name)
  have hnodd : ['.', '.'] ∉ cleanSegs false (splitSlash name) := by
    intro hmem
    have hne : cleanSegs false (splitSlash name) ≠ [] := by
      intro hnil
      rw [hnil] at hmem
      exact List.not_mem_nil _ hmem
    have hjoin : renderPath false (cleanSegs false (splitSlash name)) =
        joinSegs (cleanSegs false (splitSlash name)) := by
      rw [renderPath]
      simp [hne]
    have : strContains (goClean name) ['.', '.'] = true := by
      rw [strContains_iff_occurs, hgc, hjoin]
      exact infix_joinSegs _ _ hmem
    rw [this] at hinf
    cases hinf
  have hgood : ∀ s ∈ cleanSegs false (splitSlash name),
      s ≠ [] ∧ s ≠ ['.'] ∧ s ≠ ['.', '.'] ∧ '/' ∉ s := by
    intro s hs
    have h1 := hinv s hs
    exact ⟨h1.1, h1.2.1, fun he => hnodd (he ▸ hs), h1.2.2⟩
  refine ⟨hr, hgc, ?_, hgood⟩
  rw [hgc]
  exact pathSegsOf_renderPath false _ hgood

theorem pathSegsOf_good (p : Str) (habs : isAbsStr p = true) :
    ∀ s ∈ pathSegsOf p, s ≠ [] ∧ s ≠ ['.'] ∧ s ≠ ['.', '.'] ∧ '/' ∉ s := by
  intro s hs
  rw [pathSegsOf, habs] at hs
  have h1 := cleanSegs_inv true (splitSlash p) (splitSlash_no_slash p) s hs
  exact ⟨h1.1, h1.2.1, fun he => cleanSegs_rooted_no_dotdot (splitSlash p) (he ▸ hs), h1.2.2⟩

theorem pathSegs_goJoin (destDir : Str) (cs : List Str)
    (habs : isAbsStr destDir = true)
    (hgood : ∀ s ∈ cs, s ≠ [] ∧ s ≠ ['.'] ∧ s ≠ ['.', '.'] ∧ '/' ∉ s) :
    goJoin destDir (renderPath false cs) = renderPath true (pathSegsOf destDir ++ cs) ∧
    pathSegsOf (goJoin destDir (renderPath false cs)) = pathSegsOf destDir ++ cs := by
  have habsX : isAbsStr (destDir ++ '/' :: renderPath false cs) = true := by
    cases destDir with
    | nil => cases habs
    | cons c d' =>
      simp only [isAbsStr] at habs
      show isAbsStr (c :: (d' ++ '/' :: renderPath false cs)) = true
      simp only [isAbsStr]
      exact habs
  have hsplitX : splitSlash (destDir ++ '/' :: renderPath false cs) =
      splitSlash destDir ++ splitSlash (renderPath false cs) := splitSlash_append _ _
  have hsegs : cleanSegs true (splitSlash (destDir ++ '/' :: renderPath false cs)) =
      pathSegsOf destDir ++ cs := by
    rw [hsplitX, cleanSegs, List.foldl_append]
    cases cs with
    | nil =>
      have hrp : renderPath false ([] : List Str) = ['.'] := by rw [renderPath]; simp
      rw [hrp]
      show (List.foldl (cleanStep true)
        (List.foldl (cleanStep true) [] (splitSlash destDir)) [['.']]).reverse = _
      rw [List.foldl_cons]
      have hskip : cleanStep true (List.foldl (cleanStep true) [] (splitSlash destDir)) ['.']
          = List.foldl (cleanStep true) [] (splitSlash destDir) := by
        unfold cleanStep
        rw [if_pos (Or.inr rfl)]
      rw [hskip, List.foldl_nil]
      rw [pathSegsOf, habs, cleanSegs]
      simp
    | cons s rest =>
      have hrp : renderPath false (s :: rest) = joinSegs (s :: rest) := by
        rw [renderPath]
        simp
      rw [hrp, splitSlash_joinSegs (s :: rest) (by simp) (fun x hx => (hgood x hx).2.2.2),
        foldl_cleanStep_good true (s :: rest)
          (fun x hx => ⟨(hgood x hx).1, (hgood x hx).2.1, (hgood x hx).2.2.1⟩)]
      rw [pathSegsOf, habs, cleanSegs]
      simp
  have hjoin : goJoin destDir (renderPath false cs) =
      renderPath true (pathSegsOf destDir ++ cs) := by
    rw [goJoin, goClean, habsX, hsegs]
  refine ⟨hjoin, ?_⟩
  rw [hjoin]
  apply pathSegsOf_renderPath
  intro s hs
  rcases List.mem_append.mp hs with h1 | h2
  · exact pathSegsOf_good destDir habs s h1
  · exact hgood s h2

theorem sanitize_ok_shape (name destDir full : Str)
    (hok : sanitizePath name destDir = Except.ok full) :
    isAbsStr (goClean name) = false ∧ strContains (goClean name) ['.', '.'] = false ∧
    full = goJoin destDir (goClean name) := by
  simp only [sanitizePath] at hok
  split at hok
  next h1 => cases hok
  next h1 =>
    split at hok
    next h2 => cases hok
    next h2 =>
      split at hok
      next e heq => cases hok
      next rel heq =>
        split at hok
        next h3 => cases hok
        next h3 =>
          refine ⟨Bool.eq_false_iff.mpr h1, Bool.eq_false_iff.mpr h2, ?_⟩
          exact (Except.ok.injEq _ _ |>.mp hok).symm

theorem sanitize_ok_under (name destDir full : Str)
    (habs : isAbsStr destDir = true) (hclean : goClean destDir = destDir)
    (hok : sanitizePath name destDir = Except.ok full) :
    isUnderPath destDir full = true ∧
    (full ≠ destDir → isUnderPath destDir (dirOfStr full) = true) := by
  obtain ⟨hnabs, hinf, hfull⟩ := sanitize_ok_shape name destDir full hok
  obtain ⟨hr, hgc, hps, hgood⟩ := clean_relative_segs name hnabs hinf
  set cs := cleanSegs false (splitSlash name) with hcs
  obtain ⟨hjoin, hsegs⟩ := pathSegs_goJoin destDir cs habs hgood
  rw [hgc] at hfull
  constructor
  · rw [isUnderPath, hfull, hsegs]
    rw [List.isPrefixOf_iff_prefix]
    exact List.prefix_append _ _
  · intro hne
    have hcsne : cs ≠ [] := by
      intro hnil
      apply hne
      rw [hfull, hjoin, hnil, List.append_nil]
      have hgcd : renderPath true (pathSegsOf destDir) = goClean destDir := by
        rw [goClean, habs, pathSegsOf, habs]
      rw [hgcd, hclean]
    obtain ⟨s, rest, hcons⟩ : ∃ s rest, cs = s :: rest := by
      cases hc : cs with
      | nil => exact absurd hc hcsne
      | cons s rest => exact ⟨s, rest, rfl⟩
    have habsfull : isAbsStr full = true := by
      rw [hfull, hjoin]
      exact isAbs_renderPath_true _
    have hdl : (pathSegsOf full).dropLast = pathSegsOf destDir ++ (s :: rest).dropLast := by
      rw [hfull, hsegs, hcons, List.dropLast_append_cons]
    have hgooddl : ∀ x ∈ (pathSegsOf full).dropLast,
        x ≠ [] ∧ x ≠ ['.'] ∧ x ≠ ['.', '.'] ∧ '/' ∉ x := by
      intro x hx
      have hx' : x ∈ pathSegsOf full := List.dropLast_subset _ hx
      rw [hfull, hsegs] at hx'
      rcases List.mem_append.mp hx' with hxa | hxb
      · exact pathSegsOf_good destDir habs x hxa
      · exact hgood x hxb
    rw [isUnderPath, dirOfStr, habsfull, pathSegsOf_renderPath true _ hgooddl, hdl,
      List.isPrefixOf_iff_prefix]
    exact List.prefix_append _ _

theorem sanitize_rejects (name destDir : Str)
    (h : isAbsStr (goClean name) = true ∨ strContains (goClean name) ['.', '.'] = true) :
    ∃ e, sanitizePath name destDir = Except.error e := by
  simp only [sanitizePath]
  by_cases h1 : isAbsStr (goClean name) = true
  · rw [if_pos h1]
    exact ⟨_, rfl⟩
  · have h2 : strContains (goClean name) ['.', '.'] = true := h.resolve_left h1
    rw [if_neg h1, if_pos h2]
    exact ⟨_, rfl⟩

theorem isUnderPath_refl (d : Str) : isUnderPath d d = true := by
  rw [isUnderPath, List.isPrefixOf_iff_prefix]

theorem extractEntries_writes_under (destDir : Str)
    (habs : isAbsStr destDir = true) (hclean : goClean destDir = destDir) :
    ∀ (entries : List TarEntry) (pe : Option Str) (acc : List Str),
      (∀ p ∈ acc, isUnderPath destDir p = true) →
      ∀ p ∈ (extractEntriesGo destDir entries pe acc).1, isUnderPath destDir p = true := by
  intro entries
  induction entries with
  | nil =>
    intro pe acc hacc p hp
    cases pe with
    | none => exact hacc p hp
    | some e => exact hacc p hp
  | cons hd tl ih =>
    intro pe acc hacc p hp
    simp only [extractEntriesGo] at hp
    cases hs : sanitizePath hd.name destDir with
    | error e =>
      rw [hs] at hp
      exact hacc p hp
    | ok path =>
      rw [hs] at hp
      obtain ⟨hunder, hdiru⟩ := sanitize_ok_under hd.name destDir path habs hclean hs
      by_cases hdir : hd.isDir = true
      · rw [hdir] at hp
        simp only [if_true] at hp
        refine ih pe (acc ++ [path]) ?_ p hp
        intro q hq
        rcases List.mem_append.mp hq with hqa | hqb
        · exact hacc q hqa
        · rw [List.mem_singleton.mp hqb]
          exact hunder
      · rw [Bool.not_eq_true] at hdir
        rw [hdir] at hp
        simp only [Bool.false_eq_true, if_false] at hp
        by_cases hpd : path = destDir
        · rw [if_pos hpd] at hp
          exact hacc p hp
        · rw [if_neg hpd] at hp
          refine ih pe (acc ++ [dirOfStr path, path]) ?_ p hp
          intro q hq
          rcases List.mem_append.mp hq with hqa | hqb
          · exact hacc q hqa
          · rcases List.mem_cons.mp hqb with hq1 | hq2
            · rw [hq1]
              exact hdiru hpd
            · rw [List.mem_singleton.mp hq2]
              exact hunder

theorem extractEntries_error_of_bad (destDir : Str) :
    ∀ (entries : List TarEntry) (pe : Option Str) (acc : List Str) (ent : TarEntry),
      ent ∈ entries →
      (isAbsStr (goClean ent.name) = true ∨
        strContains (goClean ent.name) ['.', '.'] = true) →
      (extractEntriesGo destDir entries pe acc).2.isSome = true := by
  intro entries
  induction entries with
  | nil =>
    intro pe acc ent hm
    cases hm
  | cons hd tl ih =>
    intro pe acc ent hm hbad
    simp only [extractEntriesGo]
    cases hs : sanitizePath hd.name destDir with
    | error e => simp
    | ok path =>
      have hmt : ent ∈ tl := by
        rcases List.mem_cons.mp hm with he | h
        · subst he
          obtain ⟨e, herr⟩ := sanitize_rejects ent.name destDir hbad
          rw [herr] at hs
          cases hs
        · exact h
      by_cases hdir : hd.isDir = true
      · rw [hdir]
        simp only [if_true]
        exact ih pe (acc ++ [path]) ent hmt hbad
      · rw [Bool.not_eq_true] at hdir
        rw [hdir]
        simp only [Bool.false_eq_true, if_false]
        by_cases hpd : path = destDir
        · rw [if_pos hpd]
          simp
        · rw [if_neg hpd]
          exact ih pe (acc ++ [dirOfStr path, path]) ent hmt hbad

theorem removeAllFS_nil_of_under (dir : Str) (paths : List Str)
    (h : ∀ p ∈ paths, isUnderPath dir p = true) : removeAllFS dir paths = [] := by
  rw [removeAllFS, List.filter_eq_nil_iff]
  intro p hp
  simp [h p hp]

/-- C2: extraction is all-or-nothing: whenever Extract returns an error, the
filesystem under the fresh temporary namespace ends empty (the temporary
directory and everything written under it are removed), and on success the
returned path is the populated temporary directory (which exists in the
result).  The hypotheses state that the `os.MkdirTemp` result is an absolute,
clean path. -/
theorem extract_allOrNothing (data : Bytes) (stream : ArchiveStream)
    (assetType checksum tmpDir : Str)
    (habs : isAbsStr tmpDir = true) (hclean : goClean tmpDir = tmpDir) :
    (∀ e fs, ExtractGo data stream assetType checksum tmpDir = (Except.error e, fs) →
      fs = []) ∧
    (∀ p fs, ExtractGo data stream assetType checksum tmpDir = (Except.ok p, fs) →
      p = tmpDir ∧ tmpDir ∈ fs) := by
  have hwrites : ∀ p ∈ (extractEntriesGo tmpDir stream.entries stream.parseError []).1,
      isUnderPath tmpDir p = true :=
    extractEntries_writes_under tmpDir habs hclean stream.entries stream.parseError []
      (by simp)
  have hall : ∀ p ∈ tmpDir :: (extractEntriesGo tmpDir stream.entries stream.parseError []).1,
      isUnderPath tmpDir p = true := by
    intro p hp
    rcases List.mem_cons.mp hp with he | hm
    · rw [he]
      exact isUnderPath_refl tmpDir
    · exact hwrites p hm
  simp only [ExtractGo]
  cases hv : VerifyChecksum data checksum with
  | error e0 =>
    constructor
    · intro e fs heq
      injection heq with h1 h2
      exact h2.symm
    · intro p fs heq
      injection heq with h1 h2
      cases h1
  | ok u =>
    cases u
    by_cases hat : assetType = "tar".toList ∨ assetType = "zip".toList
    · rw [if_pos hat]
      cases hres : (extractEntriesGo tmpDir stream.entries stream.parseError []).2 with
      | some e1 =>
        constructor
        · intro e fs heq
          injection heq with h1 h2
          rw [← h2]
          exact removeAllFS_nil_of_under tmpDir _ hall
        · intro p fs heq
          injection heq with h1 h2
          cases h1
      | none =>
        constructor
        · intro e fs heq
          injection heq with h1 h2
          cases h1
        · intro p fs heq
          injection heq with h1 h2
          refine ⟨(Except.ok.inj h1).symm, ?_⟩
          rw [← h2]
          exact List.mem_cons_self _ _
    · rw [if_neg hat]
      constructor
      · intro e fs heq
        injection heq with h1 h2
        rw [← h2]
        exact removeAllFS_nil_of_under tmpDir [tmpDir]
          (fun p hp => by rw [List.mem_singleton.mp hp]; exact isUnderPath_refl tmpDir)
      · intro p fs heq
        injection heq with h1 h2
        cases h1

set_option maxRecDepth 20000 in
theorem extract_allOrNothing_witness :
    isAbsStr "/tmp/nori-extract-1".toList = true ∧
    (ExtractGo [] ⟨[], some "unexpected EOF".toList⟩ "tar".toList (digestString [])
      "/tmp/nori-extract-1".toList).2 = [] :=
  ⟨by decide,
    (extract_allOrNothing [] ⟨[], some "unexpected EOF".toList⟩ "tar".toList (digestString [])
      "/tmp/nori-extract-1".toList (by decide) (by decide)).1
      ("failed to extract tar: failed to read tar header: unexpected EOF".toList)
      ((ExtractGo [] ⟨[], some "unexpected EOF".toList⟩ "tar".toList (digestString [])
        "/tmp/nori-extract-1".toList).2)
      (by rfl)⟩

/-- C10: for every archive-kind string other than "tar" or "zip", Extract
(after the checksum verifies) fails with the unsupported-asset-type error and
removes the freshly created temporary directory, leaving nothing behind. -/
theorem extract_unsupportedType (data : Bytes) (stream : ArchiveStream)
    (assetType checksum tmpDir : Str)
    (hck : VerifyChecksum data checksum = Except.ok ())
    (ht : ¬ assetType = "tar".toList) (hz : ¬ assetType = "zip".toList) :
    ExtractGo data stream assetType checksum tmpDir =
      (Except.error ("unsupported asset type: ".toList ++ assetType), []) := by
  simp only [ExtractGo, hck]
  rw [if_neg (by push_neg; exact ⟨ht, hz⟩)]
  have hempty : removeAllFS tmpDir [tmpDir] = [] :=
    removeAllFS_nil_of_under tmpDir [tmpDir]
      (fun p hp => by rw [List.mem_singleton.mp hp]; exact isUnderPath_refl tmpDir)
  rw [hempty]

set_option maxRecDepth 20000 in
theorem extract_unsupportedType_witness :
    VerifyChecksum [] (digestString []) = Except.ok () ∧
    ExtractGo [] ⟨[], none⟩ "rar".toList (digestString []) "/tmp/nori-extract-1".toList =
      (Except.error ("unsupported asset type: ".toList ++ "rar".toList), []) :=
  ⟨by rfl,
    extract_unsupportedType [] ⟨[], none⟩ "rar".toList (digestString [])
      "/tmp/nori-extract-1".toList (by rfl) (by decide) (by decide)⟩

/-- C1 (amended): for every archive entry whose CLEANED name is absolute or
contains the substring "..", extraction (with a verified checksum and a
supported archive kind) fails; and in all cases every path written during
extraction, and every path present afterwards, lies under the destination
temporary directory — no file is ever written outside it.  (As stated, the
claim is false: a name such as "a/../b" contains a parent-directory segment
but cleans to "b" and is extracted, inside the destination; see the
counterexample.) -/
theorem extractSanitize_amended (data : Bytes) (stream : ArchiveStream)
    (assetType checksum tmpDir : Str)
    (habs : isAbsStr tmpDir = true) (hclean : goClean tmpDir = tmpDir) :
    (∀ ent ∈ stream.entries,
      (isAbsStr (goClean ent.name) = true ∨
        strContains (goClean ent.name) ['.', '.'] = true) →
      VerifyChecksum data checksum = Except.ok () →
      (assetType = "tar".toList ∨ assetType = "zip".toList) →
      ∃ e fs, ExtractGo data stream assetType checksum tmpDir = (Except.error e, fs)) ∧
    (∀ p ∈ (extractEntriesGo tmpDir stream.entries stream.parseError []).1,
      isUnderPath tmpDir p = true) ∧
    (∀ r fs, ExtractGo data stream assetType checksum tmpDir = (r, fs) →
      ∀ p ∈ fs, isUnderPath tmpDir p = true) := by
  have hwrites : ∀ p ∈ (extractEntriesGo tmpDir stream.entries stream.parseError []).1,
      isUnderPath tmpDir p = true :=
    extractEntries_writes_under tmpDir habs hclean stream.entries stream.parseError []
      (by simp)
  have hall : ∀ p ∈ tmpDir :: (extractEntriesGo tmpDir stream.entries stream.parseError []).1,
      isUnderPath tmpDir p = true := by
    intro p hp
    rcases List.mem_cons.mp hp with he | hm
    · rw [he]
      exact isUnderPath_refl tmpDir
    · exact hwrites p hm
  refine ⟨?_, hwrites, ?_⟩
  · intro ent hm hbad hck hat
    have hsome := extractEntries_error_of_bad tmpDir stream.entries stream.parseError []
      ent hm hbad
    simp only [ExtractGo, hck]
    rw [if_pos hat]
    cases hres : (extractEntriesGo tmpDir stream.entries stream.parseError []).2 with
    | some e1 => exact ⟨_, _, rfl⟩
    | none =>
      rw [hres] at hsome
      cases hsome
  · intro r fs heq p hp
    simp only [ExtractGo] at heq
    cases hv : VerifyChecksum data checksum with
    | error e0 =>
      rw [hv] at heq
      injection heq with h1 h2
      rw [← h2] at hp
      cases hp
    | ok u =>
      cases u
      rw [hv] at heq
      by_cases hat : assetType = "tar".toList ∨ assetType = "zip".toList
      · rw [if_pos hat] at heq
        cases hres : (extractEntriesGo tmpDir stream.entries stream.parseError []).2 with
        | some e1 =>
          rw [hres] at heq
          injection heq with h1 h2
          rw [← h2] at hp
          exact hall p (List.mem_of_mem_filter hp)
        | none =>
          rw [hres] at heq
          injection heq with h1 h2
          rw [← h2] at hp
          exact hall p hp
      · rw [if_neg hat] at heq
        injection heq with h1 h2
        rw [← h2] at hp
        rcases List.mem_filter.mp hp with ⟨hmem, _⟩
        rw [List.mem_singleton.mp hmem]
        exact isUnderPath_refl tmpDir

set_option maxRecDepth 20000 in
theorem extractSanitize_amended_witness :
    isAbsStr "/tmp/nori-extract-1".toList = true ∧
    (∃ e fs, ExtractGo [] ⟨[⟨"../evil.txt".toList, false⟩], none⟩ "tar".toList
      (digestString []) "/tmp/nori-extract-1".toList = (Except.error e, fs)) :=
  ⟨by decide,
    (extractSanitize_amended [] ⟨[⟨"../evil.txt".toList, false⟩], none⟩ "tar".toList
      (digestString []) "/tmp/nori-extract-1".toList (by decide) (by decide)).1
      ⟨"../evil.txt".toList, false⟩ (List.mem_singleton.mpr rfl)
      (Or.inr (by decide)) (by rfl) (Or.inl rfl)⟩

set_option maxRecDepth 20000 in
/-- C1 counterexample: the entry name "a/../b" contains a parent-directory
segment, yet extraction of a tar archive containing it succeeds (the name is
cleaned to "b" before the traversal check), contradicting the claim that such
an archive always fails with a path-traversal error.  The file lands inside
the destination directory, at /tmp/nori-extract-1/b. -/
theorem extractTraversalName_counterexample :
    ['.', '.'] ∈ splitSlash "a/../b".toList ∧
    (ExtractGo [] ⟨[⟨"a/../b".toList, false⟩], none⟩ "tar".toList (digestString [])
      "/tmp/nori-extract-1".toList).1 = Except.ok "/tmp/nori-extract-1".toList ∧
    (ExtractGo [] ⟨[⟨"a/../b".toList, false⟩], none⟩ "tar".toList (digestString [])
      "/tmp/nori-extract-1".toList).2 =
      ["/tmp/nori-extract-1".toList, "/tmp/nori-extract-1".toList,
        "/tmp/nori-extract-1/b".toList] := by
  exact ⟨by decide, rfl, by decide⟩

/-- C9: the sanitizer rejects every entry whose cleaned name contains the
two-character substring ".." anywhere — including benign names such as
"foo..bar" where ".." is not a parent-directory segment — so an archive
containing such an entry fails extraction. -/
theorem extractDotDotSubstringRejected (data : Bytes) (stream : ArchiveStream)
    (assetType checksum tmpDir : Str) (ent : TarEntry)
    (hm : ent ∈ stream.entries)
    (hinf : strContains (goClean ent.name) ['.', '.'] = true)
    (hck : VerifyChecksum data checksum = Except.ok ())
    (hat : assetType = "tar".toList ∨ assetType = "zip".toList) :
    (∃ e fs, ExtractGo data stream assetType checksum tmpDir = (Except.error e, fs)) ∧
    (∀ dest : Str, sanitizePath "foo..bar".toList dest =
      Except.error "path traversal (..) is not allowed".toList) := by
  constructor
  · have hsome := extractEntries_error_of_bad tmpDir stream.entries stream.parseError []
      ent hm (Or.inr hinf)
    simp only [ExtractGo, hck]
    rw [if_pos hat]
    cases hres : (extractEntriesGo tmpDir stream.entries stream.parseError []).2 with
    | some e1 => exact ⟨_, _, rfl⟩
    | none =>
      rw [hres] at hsome
      cases hsome
  · intro dest
    rfl

set_option maxRecDepth 20000 in
theorem extractDotDotSubstringRejected_witness :
    strContains (goClean "foo..bar".toList) ['.', '.'] = true ∧
    (∃ e fs, ExtractGo [] ⟨[⟨"foo..bar".toList, false⟩], none⟩ "tar".toList
      (digestString []) "/tmp/nori-extract-1".toList = (Except.error e, fs)) :=
  ⟨by decide,
    (extractDotDotSubstringRejected [] ⟨[⟨"foo..bar".toList, false⟩], none⟩ "tar".toList
      (digestString []) "/tmp/nori-extract-1".toList ⟨"foo..bar".toList, false⟩
      (List.mem_singleton.mpr rfl) (by decide) (by rfl) (Or.inl rfl)).1⟩

/-! ## RootDetector (C5) -/

/-- C5 (amended): DetectRoot returns the single top-level non-hidden directory
whenever exactly one such directory exists among the entries — regardless of
top-level files — and the extracted directory itself otherwise (zero, or two
or more, non-hidden directories).  (The claim's "top-level files present
alongside a directory" case is wrong about the code: files are ignored by the
directory count; see the counterexample.) -/
theorem detectRoot_amended (extractDir : Str) (entries : List (Str × Bool)) :
    (∀ nm : Str, entries.countP (fun e => e.2 && !(['.'].isPrefixOf e.1)) = 1 →
      (nm, true) ∈ entries → (['.'] : Str).isPrefixOf nm = false →
      DetectRoot extractDir entries = goJoin extractDir nm) ∧
    (entries.countP (fun e => e.2 && !(['.'].isPrefixOf e.1)) ≠ 1 →
      DetectRoot extractDir entries = extractDir) := by
  constructor
  · intro nm hcount hmem hnh
    have hf : (nm, true) ∈ entries.filter (fun e => e.2 && !(['.'].isPrefixOf e.1)) := by
      rw [List.mem_filter]
      exact ⟨hmem, by simp [hnh]⟩
    have hlen : (entries.filter (fun e => e.2 && !(['.'].isPrefixOf e.1))).length = 1 := by
      rw [← List.countP_eq_length_filter]
      exact hcount
    obtain ⟨a, ha⟩ := List.length_eq_one.mp hlen
    rw [ha] at hf
    have haeq : a = (nm, true) := (List.mem_singleton.mp hf).symm
    rw [haeq] at ha
    simp [DetectRoot, singleDirName, ha]
  · intro hcount
    have hlen : (entries.filter (fun e => e.2 && !(['.'].isPrefixOf e.1))).length ≠ 1 := by
      rw [← List.countP_eq_length_filter]
      exact hcount
    simp only [DetectRoot, singleDirName]
    cases hd : (entries.filter (fun e => e.2 && !(['.'].isPrefixOf e.1))).map Prod.fst with
    | nil => rfl
    | cons d rest =>
      cases rest with
      | nil =>
        exfalso
        apply hlen
        have : ((entries.filter (fun e => e.2 && !(['.'].isPrefixOf e.1))).map Prod.fst).length
            = 1 := by rw [hd]; rfl
        simpa using this
      | cons d2 rest2 => rfl

theorem detectRoot_amended_witness :
    ([("pkg".toList, true)] : List (Str × Bool)).countP
      (fun e => e.2 && !(['.'].isPrefixOf e.1)) = 1 ∧
    DetectRoot "/tmp/x".toList [("pkg".toList, true)] = goJoin "/tmp/x".toList "pkg".toList :=
  ⟨by decide,
    (detectRoot_amended "/tmp/x".toList [("pkg".toList, true)]).1 "pkg".toList
      (by decide) (by decide) (by decide)⟩

/-- C5 counterexample: with one non-hidden top-level directory and a top-level
file alongside it, DetectRoot returns the directory, not the extracted
directory itself as the claim states for the "top-level files present"
case. -/
theorem detectRoot_filesAlongside_counterexample :
    DetectRoot "/tmp/x".toList [("pkg".toList, true), ("readme.txt".toList, false)] =
      "/tmp/x/pkg".toList ∧
    "/tmp/x/pkg".toList ≠ "/tmp/x".toList := by
  exact ⟨by decide, by decide⟩

/-! ## ShimManager double publish (C6) -/

/-- C6 (code bug): on unix, publishing a shim for the same binary twice
succeeds both times, but the first publish leaves a symlink and the second
publish's `os.Symlink` fails with EEXIST, so the code falls back to
`os.WriteFile` on the shim path — which follows the existing symlink and
overwrites the TARGET binary's content with the wrapper script (which execs
the target, i.e. itself).  The claim (and spec) say re-publishing simply
overwrites the launcher and leaves the target unchanged. -/
theorem createShim_twice_overwrites_target :
    ∃ fs1 fs2,
      CreateShimUnix shimFs0 shimShimsDir "test".toList shimTargetPath = Except.ok fs1 ∧
      CreateShimUnix fs1 shimShimsDir "test".toList shimTargetPath = Except.ok fs2 ∧
      statFS fs1 (shimShimsDir ++ ["test".toList]) = some (FNode.symlink shimTargetPath) ∧
      statFS shimFs0 shimTargetPath =
        some (FNode.file "#!/bin/sh\necho test".toList 493) ∧
      statFS fs2 shimTargetPath = some (FNode.file (wrapperScript shimTargetPath) 493) ∧
      wrapperScript shimTargetPath ≠ "#!/bin/sh\necho test".toList := by
  refine ⟨_, _, rfl, rfl, ?_, ?_, ?_, ?_⟩ <;> decide

/-! ## Installer (C7, C8) -/

theorem prefix_antisymm {l1 l2 : SegPath} (h1 : l1 <+: l2) (h2 : l2 <+: l1) : l1 = l2 := by
  obtain ⟨t, ht⟩ := h1
  have hlen : l1.length + t.length = l2.length := by rw [← ht]; simp
  have hlen2 : l2.length ≤ l1.length := h2.length_le
  have : t = [] := List.eq_nil_of_length_eq_zero (by omega)
  rw [this] at ht
  simpa using ht

theorem statFS_mem (fs : FS) (p : SegPath) (n : FNode) (h : statFS fs p = some n) :
    (p, n) ∈ fs := by
  induction fs with
  | nil => cases h
  | cons e rest ih =>
    rw [statFS] at h
    by_cases he : e.1 = p
    · rw [if_pos he] at h
      have hn : e.2 = n := Option.some.inj h
      have : e = (p, n) := Prod.ext he hn
      rw [this] at *
      exact List.mem_cons_self _ _
    · rw [if_neg he] at h
      exact List.mem_cons_of_mem _ (ih h)

theorem statFS_isSome_of_mem_keys (fs : FS) (p : SegPath) (h : p ∈ keysFS fs) :
    (statFS fs p).isSome = true := by
  induction fs with
  | nil => cases h
  | cons e rest ih =>
    rw [statFS]
    by_cases he : e.1 = p
    · rw [if_pos he]
      rfl
    · rw [if_neg he]
      rcases List.mem_cons.mp h with h1 | h2
      · exact absurd h1.symm he
      · exact ih h2

theorem mem_keys_of_statFS (fs : FS) (p : SegPath) (n : FNode)
    (h : statFS fs p = some n) : p ∈ keysFS fs := by
  have := statFS_mem fs p n h
  exact List.mem_map.mpr ⟨(p, n), this, rfl⟩

theorem statFS_append_of_some (fs l : FS) (p : SegPath) (n : FNode)
    (h : statFS fs p = some n) : statFS (fs ++ l) p = some n := by
  induction fs with
  | nil => cases h
  | cons e rest ih =>
    rw [statFS] at h
    show statFS (e :: (rest ++ l)) p = some n
    rw [statFS]
    by_cases he : e.1 = p
    · rw [if_pos he] at h ⊢
      exact h
    · rw [if_neg he] at h ⊢
      exact ih h

theorem keysFS_mkdirAll (fs : FS) (p : SegPath) :
    ∀ q ∈ keysFS (mkdirAllFS fs p), q ∈ keysFS fs ∨ q <+: p := by
  intro q hq
  rw [mkdirAllFS, keysFS, List.map_append] at hq
  rcases List.mem_append.mp hq with h1 | h2
  · exact Or.inl h1
  · right
    obtain ⟨pair, hpair, hfst⟩ := List.mem_map.mp h2
    obtain ⟨anc, hanc, heq⟩ := List.mem_filterMap.mp hpair
    obtain ⟨k, hk, htake⟩ := List.mem_map.mp (by
      rw [ancestorsOf] at hanc
      exact hanc)
    by_cases hmem : anc ∈ keysFS fs
    · rw [if_pos hmem] at heq
      cases heq
    · rw [if_neg hmem] at heq
      have hpa : pair = (anc, FNode.dir) := (Option.some.inj heq).symm
      rw [hpa] at hfst
      rw [← hfst, ← htake]
      exact List.take_prefix _ _

theorem statFS_mkdirAll_of_some (fs : FS) (p q : SegPath) (n : FNode)
    (h : statFS fs q = some n) : statFS (mkdirAllFS fs p) q = some n :=
  statFS_append_of_some fs _ q n h

theorem statFS_updateFS_other (fs : FS) (p p' : SegPath) (n : FNode) (hne : p' ≠ p) :
    statFS (updateFS fs p n) p' = statFS fs p' := by
  induction fs with
  | nil => rfl
  | cons e rest ih =>
    rw [updateFS, List.map_cons]
    by_cases he : e.1 = p
    · rw [if_pos he]
      show statFS ((p, n) :: _) p' = statFS (e :: rest) p'
      rw [statFS, statFS, if_neg (fun h => hne h.symm), if_neg (by rw [he]; exact fun h => hne h.symm)]
      exact ih
    · rw [if_neg he]
      show statFS (e :: _) p' = statFS (e :: rest) p'
      rw [statFS, statFS]
      by_cases hep : e.1 = p'
      · rw [if_pos hep, if_pos hep]
      · rw [if_neg hep, if_neg hep]
        exact ih

theorem statFS_updateFS_self (fs : FS) (p : SegPath) (n m : FNode)
    (h : statFS fs p = some m) : statFS (updateFS fs p n) p = some n := by
  induction fs with
  | nil => cases h
  | cons e rest ih =>
    rw [statFS] at h
    rw [updateFS, List.map_cons]
    by_cases he : e.1 = p
    · rw [if_pos he]
      show statFS ((p, n) :: _) p = some n
      rw [statFS, if_pos rfl]
    · rw [if_neg he]
      show statFS (e :: _) p = some n
      rw [statFS, if_neg he]
      exact ih (by rw [if_neg he] at h; exact h)

/-- C7: when the manifest's version/platform validate but some declared binary
path does not exist under the detected package root, Install fails with the
missing-binary error for the first such binary, and the filesystem is
completely unchanged — in particular no install directory is created at the
deterministic target key path. -/
theorem install_missingBinary (fs : FS) (m : ManifestM) (version platformTag : Str)
    (extractDir noriRoot : SegPath)
    (hvalid : ValidateVersionM m version platformTag = Except.ok ())
    (bin : Str) (hmem : bin ∈ m.bins)
    (hmiss : statFS fs (DetectRootFS fs extractDir ++ binSegs bin) = none) :
    ∃ b, b ∈ m.bins ∧
      statFS fs (DetectRootFS fs extractDir ++ binSegs b) = none ∧
      InstallGo fs m version platformTag extractDir noriRoot =
        (Except.error (binMissingMsg b), fs) := by
  have hsome : (firstMissing fs (DetectRootFS fs extractDir) m.bins).isSome = true := by
    rw [firstMissing, List.find?_isSome]
    exact ⟨bin, hmem, by rw [hmiss]; rfl⟩
  obtain ⟨b, hb⟩ := Option.isSome_iff_exists.mp hsome
  have hpb := List.find?_some hb
  have hmb := List.mem_of_find?_eq_some hb
  refine ⟨b, hmb, ?_, ?_⟩
  · simpa using hpb
  · simp only [InstallGo, hvalid, hb]

theorem install_missingBinary_witness :
    ("bin/missing".toList ∈
      (ManifestM.mk "testpkg".toList ["bin/missing".toList]
        [("1.0.0".toList, ["linux-amd64".toList])]).bins) ∧
    ∃ b, b ∈ ["bin/missing".toList] ∧
      statFS [(["tmp".toList, "x".toList], FNode.dir)]
        (DetectRootFS [(["tmp".toList, "x".toList], FNode.dir)] ["tmp".toList, "x".toList]
          ++ binSegs b) = none ∧
      InstallGo [(["tmp".toList, "x".toList], FNode.dir)]
        (ManifestM.mk "testpkg".toList ["bin/missing".toList]
          [("1.0.0".toList, ["linux-amd64".toList])])
        "1.0.0".toList "linux-amd64".toList ["tmp".toList, "x".toList]
        ["home".toList, "u".toList, ".nori".toList] =
        (Except.error (binMissingMsg b),
          [(["tmp".toList, "x".toList], FNode.dir)]) :=
  ⟨by decide,
    install_missingBinary [(["tmp".toList, "x".toList], FNode.dir)]
      (ManifestM.mk "testpkg".toList ["bin/missing".toList]
        [("1.0.0".toList, ["linux-amd64".toList])])
      "1.0.0".toList "linux-amd64".toList ["tmp".toList, "x".toList]
      ["home".toList, "u".toList, ".nori".toList] (by rfl)
      "bin/missing".toList (by decide) (by decide)⟩

theorem keysFS_cons_tail {e : SegPath × FNode} {rest : FS} {q : SegPath}
    (h : q ∈ keysFS rest) : q ∈ keysFS (e :: rest) := by
  rw [keysFS, List.map_cons]
  exact List.mem_cons_of_mem _ h

theorem keysFS_head (e : SegPath × FNode) (rest : FS) : e.1 ∈ keysFS (e :: rest) := by
  rw [keysFS, List.map_cons]
  exact List.mem_cons_self _ _

theorem statFS_rename_moved (fs : FS) (s d : SegPath) (r : List Str) (n : FNode)
    (h : statFS fs (s ++ r) = some n)
    (hnd : ∀ q ∈ keysFS fs, ¬ d <+: q) :
    statFS (renameFS fs s d) (d ++ r) = some n := by
  induction fs with
  | nil => cases h
  | cons e rest ih =>
    rw [statFS] at h
    rw [renameFS, List.map_cons]
    by_cases hsq : s.isPrefixOf e.1 = true
    · rw [if_pos hsq]
      show statFS ((d ++ e.1.drop s.length, e.2) :: renameFS rest s d) (d ++ r) = some n
      rw [statFS]
      by_cases heq : e.1 = s ++ r
      · have hdrop : (s ++ r).drop s.length = r := List.drop_left s r
        rw [if_pos (by rw [heq, hdrop])]
        rw [if_pos heq] at h
        exact h
      · have hpre : s <+: e.1 := List.isPrefixOf_iff_prefix.mp hsq
        obtain ⟨t, ht⟩ := hpre
        have hdp : e.1.drop s.length = t := by rw [← ht]; exact List.drop_left s t
        have hne : (d ++ e.1.drop s.length, e.2).1 = d ++ r → False := by
          intro hcon
          apply heq
          have h2 : e.1.drop s.length = r := List.append_cancel_left hcon
          have htr : t = r := by rw [← hdp, h2]
          rw [← ht, htr]
        rw [if_neg hne]
        rw [if_neg heq] at h
        exact ih h (fun q hq => hnd q (keysFS_cons_tail hq))
    · rw [if_neg hsq]
      show statFS (e :: renameFS rest s d) (d ++ r) = some n
      rw [statFS]
      have hne : e.1 = d ++ r → False := by
        intro hcon
        exact hnd e.1 (keysFS_head e rest) (hcon ▸ ⟨r, rfl⟩)
      rw [if_neg hne]
      have heq2 : e.1 ≠ s ++ r := by
        intro hcon
        apply hsq
        rw [hcon, List.isPrefixOf_iff_prefix]
        exact List.prefix_append _ _
      rw [if_neg heq2] at h
      exact ih h (fun q hq => hnd q (keysFS_cons_tail hq))

theorem statFS_rename_other (fs : FS) (s d : SegPath) (p : SegPath)
    (hs : ¬ s <+: p)
    (hnp : ∀ q ∈ keysFS fs, s <+: q → d ++ q.drop s.length ≠ p) :
    statFS (renameFS fs s d) p = statFS fs p := by
  induction fs with
  | nil => rfl
  | cons e rest ih =>
    rw [renameFS, List.map_cons]
    by_cases hsq : s.isPrefixOf e.1 = true
    · rw [if_pos hsq]
      show statFS ((d ++ e.1.drop s.length, e.2) :: renameFS rest s d) p
        = statFS (e :: rest) p
      rw [statFS, statFS]
      have h1 : (d ++ e.1.drop s.length, e.2).1 = p → False := fun hcon =>
        hnp e.1 (keysFS_head e rest) (List.isPrefixOf_iff_prefix.mp hsq) hcon
      have h2 : e.1 ≠ p := fun hcon =>
        hs (hcon ▸ List.isPrefixOf_iff_prefix.mp hsq)
      rw [if_neg h1, if_neg h2]
      exact ih (fun q hq => hnp q (keysFS_cons_tail hq))
    · rw [if_neg hsq]
      show statFS (e :: renameFS rest s d) p = statFS (e :: rest) p
      rw [statFS, statFS]
      by_cases hep : e.1 = p
      · rw [if_pos hep, if_pos hep]
      · rw [if_neg hep, if_neg hep]
        exact ih (fun q hq => hnp q (keysFS_cons_tail hq))

theorem mem_readDirNames (fs : FS) (d : SegPath) (e : Str) (n : FNode)
    (h : statFS fs (d ++ [e]) = some n) : e ∈ readDirNamesFS fs d := by
  have hmem := statFS_mem fs _ n h
  rw [readDirNamesFS, List.mem_dedup, List.mem_map]
  refine ⟨(e, isDirNode n), ?_, rfl⟩
  rw [readDirFS, List.mem_dedup, List.mem_filterMap]
  refine ⟨(d ++ [e], n), hmem, ?_⟩
  rw [if_pos ⟨by rw [List.isPrefixOf_iff_prefix]; exact List.prefix_append _ _, by simp⟩]
  rw [List.getLast?_concat]
  rfl

theorem keysFS_rename (fs : FS) (s d : SegPath) :
    ∀ q' ∈ keysFS (renameFS fs s d), ∃ q ∈ keysFS fs,
      q' = if s.isPrefixOf q = true then d ++ q.drop s.length else q := by
  intro q' hq'
  rw [renameFS, keysFS, List.map_map, List.mem_map] at hq'
  obtain ⟨pair, hpair, heq⟩ := hq'
  refine ⟨pair.1, List.mem_map.mpr ⟨pair, hpair, rfl⟩, ?_⟩
  by_cases hsp : s.isPrefixOf pair.1 = true
  · rw [if_pos hsp]
    rw [← heq]
    show (if s.isPrefixOf pair.1 = true then
      ((d ++ pair.1.drop s.length, pair.2) : SegPath × FNode) else pair).1 = _
    rw [if_pos hsp]
  · rw [if_neg hsp]
    rw [← heq]
    show (if s.isPrefixOf pair.1 = true then
      ((d ++ pair.1.drop s.length, pair.2) : SegPath × FNode) else pair).1 = _
    rw [if_neg hsp]

theorem singleton_prefix_eq {a b : Str} (h : ([a] : List Str) <+: [b]) : a = b := by
  obtain ⟨t, ht⟩ := h
  have ht' : a :: t = b :: [] := ht
  simpa using congrArg List.head? ht'

theorem fold_rename_stat (src dst : SegPath) (e : Str) (r' : List Str) (n : FNode)
    (hsd : ¬ src <+: dst) (hds : ¬ dst <+: src) :
    ∀ (ns : List Str) (fs : FS), ns.Nodup →
    (∀ q ∈ keysFS fs, dst <+: q → q = dst ∨ ∃ y, y ∉ ns ∧ (dst ++ [y]) <+: q) →
    ((e ∈ ns ∧ statFS fs (src ++ e :: r') = some n) ∨
      (e ∉ ns ∧ statFS fs (dst ++ e :: r') = some n)) →
    statFS (ns.foldl (fun acc x => renameFS acc (src ++ [x]) (dst ++ [x])) fs)
      (dst ++ e :: r') = some n := by
  intro ns
  induction ns with
  | nil =>
    intro fs _ _ hcase
    rcases hcase with ⟨hin, _⟩ | ⟨_, hstat⟩
    · cases hin
    · exact hstat
  | cons x ns' ih =>
    intro fs hnodup hinv hcase
    have hxn : x ∉ ns' := (List.nodup_cons.mp hnodup).1
    have hnd' : ns'.Nodup := (List.nodup_cons.mp hnodup).2
    rw [List.foldl_cons]
    have hinv' : ∀ q' ∈ keysFS (renameFS fs (src ++ [x]) (dst ++ [x])), dst <+: q' →
        q' = dst ∨ ∃ y, y ∉ ns' ∧ (dst ++ [y]) <+: q' := by
      intro q' hq' hdq'
      obtain ⟨q, hq, hform⟩ := keysFS_rename fs (src ++ [x]) (dst ++ [x]) q' hq'
      by_cases hsp : (src ++ [x]).isPrefixOf q = true
      · rw [if_pos hsp] at hform
        right
        refine ⟨x, hxn, ?_⟩
        rw [hform]
        exact List.prefix_append _ _
      · rw [if_neg hsp] at hform
        subst hform
        rcases hinv q' hq hdq' with h1 | ⟨y, hy, hpre⟩
        · exact Or.inl h1
        · exact Or.inr ⟨y, fun hc => hy (List.mem_cons_of_mem _ hc), hpre⟩
    rcases hcase with ⟨hin, hstat⟩ | ⟨hnin, hstat⟩
    · by_cases hex : e = x
      · subst hex
        apply ih _ hnd' hinv'
        right
        refine ⟨hxn, ?_⟩
        have hassoc : dst ++ e :: r' = (dst ++ [e]) ++ r' := by simp
        have hassoc2 : src ++ e :: r' = (src ++ [e]) ++ r' := by simp
        rw [hassoc]
        apply statFS_rename_moved
        · rw [← hassoc2]
          exact hstat
        · intro q hq hpre
          have hdq : dst <+: q := (List.prefix_append dst [e]).trans hpre
          rcases hinv q hq hdq with h1 | ⟨y, hy, hpres⟩
          · rw [h1] at hpre
            have := hpre.length_le
            simp at this
          · have hyeq : y = e := by
              rcases List.prefix_or_prefix_of_prefix hpre hpres with h | h
              · exact (singleton_prefix_eq ((List.prefix_append_right_inj dst).mp h)).symm
              · exact singleton_prefix_eq ((List.prefix_append_right_inj dst).mp h)
            exact hy (hyeq ▸ List.mem_cons_self _ _)
      · apply ih _ hnd' hinv'
        left
        refine ⟨(List.mem_cons.mp hin).resolve_left hex, ?_⟩
        have hs1 : ¬ (src ++ [x]) <+: (src ++ e :: r') := by
          intro hcon
          have hxe : ([x] : List Str) <+: e :: r' := by
            have hcon' : src ++ [x] <+: src ++ ([e] ++ r') := by simpa using hcon
            have := (List.prefix_append_right_inj src).mp hcon'
            simpa using this
          obtain ⟨t, ht⟩ := hxe
          have ht' : x :: t = e :: r' := ht
          injection ht' with h1 _
          exact hex h1.symm
        have hnp1 : ∀ q ∈ keysFS fs, (src ++ [x]) <+: q →
            (dst ++ [x]) ++ q.drop (src ++ [x]).length ≠ src ++ e :: r' := by
          intro q hq hpre hcon
          have hd : dst <+: src ++ e :: r' := by
            rw [← hcon]
            exact (List.prefix_append dst [x]).trans (List.prefix_append _ _)
          have hsrc : src <+: src ++ e :: r' := List.prefix_append _ _
          rcases List.prefix_or_prefix_of_prefix hsrc hd with h | h
          · exact hsd h
          · exact hds h
        rw [statFS_rename_other fs _ _ _ hs1 hnp1]
        exact hstat
    · apply ih _ hnd' hinv'
      right
      have hene : e ≠ x := fun h => hnin (h ▸ List.mem_cons_self _ _)
      refine ⟨fun h => hnin (List.mem_cons_of_mem _ h), ?_⟩
      have hs1 : ¬ (src ++ [x]) <+: (dst ++ e :: r') := by
        intro hcon
        have hsrc : src <+: dst ++ e :: r' := (List.prefix_append src [x]).trans hcon
        have hd : dst <+: dst ++ e :: r' := List.prefix_append _ _
        rcases List.prefix_or_prefix_of_prefix hsrc hd with h | h
        · exact hsd h
        · exact hds h
      have hnp1 : ∀ q ∈ keysFS fs, (src ++ [x]) <+: q →
          (dst ++ [x]) ++ q.drop (src ++ [x]).length ≠ dst ++ e :: r' := by
        intro q hq hpre hcon
        rw [List.append_assoc] at hcon
        have hc2 := List.append_cancel_left hcon
        have hc3 : x :: q.drop (src ++ [x]).length = e :: r' := hc2
        injection hc3 with h1 _
        exact hene h1.symm
      rw [statFS_rename_other fs _ _ _ hs1 hnp1]
      exact hstat

theorem moveContents_stat (fs : FS) (src dst : SegPath) (e : Str) (r' : List Str) (n : FNode)
    (hsd : ¬ src <+: dst) (hds : ¬ dst <+: src)
    (hstat : statFS fs (src ++ e :: r') = some n)
    (hchild : e ∈ readDirNamesFS fs src)
    (hinv : ∀ q ∈ keysFS fs, dst <+: q → q = dst) :
    statFS (moveContentsFS fs src dst) (dst ++ e :: r') = some n := by
  rw [moveContentsFS]
  apply fold_rename_stat src dst e r' n hsd hds (readDirNamesFS fs src) fs
  · rw [readDirNamesFS]
    exact List.nodup_dedup _
  · intro q hq hd
    exact Or.inl (hinv q hq hd)
  · exact Or.inl ⟨hchild, hstat⟩

theorem exec_lor_land (m : Nat) : (m ||| execBits) &&& execBits = execBits := by
  apply Nat.eq_of_testBit_eq
  intro i
  rw [Nat.testBit_land, Nat.testBit_lor]
  cases m.testBit i <;> cases execBits.testBit i <;> rfl

theorem exec_lor_ne_zero (m : Nat) : (m ||| execBits) &&& execBits ≠ 0 := by
  rw [exec_lor_land]
  decide

theorem chmodStep_preserves_execfile (ip : SegPath) (fs : FS) (b : Str) (p : SegPath)
    (c : Str) (m : Nat) (h : statFS fs p = some (FNode.file c m))
    (hex : m &&& execBits ≠ 0) :
    statFS (chmodStep ip fs b) p = some (FNode.file c m) := by
  simp only [chmodStep]
  by_cases hpe : ip ++ binSegs b = p
  · rw [hpe, h]
    simp only [if_neg hex]
    exact h
  · cases hs : statFS fs (ip ++ binSegs b) with
    | none => exact h
    | some nd =>
      cases nd with
      | file c2 m2 =>
        by_cases hz : m2 &&& execBits = 0
        · simp only [if_pos hz]
          rw [statFS_updateFS_other fs _ p _ (fun hcc => hpe hcc.symm)]
          exact h
        · simp only [if_neg hz]
          exact h
      | dir => exact h
      | symlink t => exact h

theorem chmodStep_file (ip : SegPath) (fs : FS) (b : Str) (p : SegPath) (c : Str) (m : Nat)
    (h : statFS fs p = some (FNode.file c m)) :
    ∃ c' m', statFS (chmodStep ip fs b) p = some (FNode.file c' m') := by
  simp only [chmodStep]
  by_cases hpe : ip ++ binSegs b = p
  · rw [hpe, h]
    by_cases hz : m &&& execBits = 0
    · simp only [if_pos hz]
      exact ⟨c, m ||| execBits, statFS_updateFS_self fs p _ _ h⟩
    · simp only [if_neg hz]
      exact ⟨c, m, h⟩
  · cases hs : statFS fs (ip ++ binSegs b) with
    | none => exact ⟨c, m, h⟩
    | some nd =>
      cases nd with
      | file c2 m2 =>
        by_cases hz : m2 &&& execBits = 0
        · simp only [if_pos hz]
          rw [statFS_updateFS_other fs _ p _ (fun hcc => hpe hcc.symm)]
          exact ⟨c, m, h⟩
        · simp only [if_neg hz]
          exact ⟨c, m, h⟩
      | dir => exact ⟨c, m, h⟩
      | symlink t => exact ⟨c, m, h⟩

theorem chmodBins_preserves_execfile (ip : SegPath) (bins : List Str) :
    ∀ (fs : FS) (p : SegPath) (c : Str) (m : Nat),
      statFS fs p = some (FNode.file c m) → m &&& execBits ≠ 0 →
      statFS (chmodBins fs ip bins) p = some (FNode.file c m) := by
  induction bins with
  | nil => intro fs p c m h _; exact h
  | cons b0 tl ih =>
    intro fs p c m h hex
    show statFS (List.foldl (chmodStep ip) (chmodStep ip fs b0) tl) p = _
    exact ih (chmodStep ip fs b0) p c m
      (chmodStep_preserves_execfile ip fs b0 p c m h hex) hex

theorem chmodBins_exec (ip : SegPath) (bins : List Str) :
    ∀ fs : FS, (∀ b ∈ bins, ∃ c m, statFS fs (ip ++ binSegs b) = some (FNode.file c m)) →
    ∀ b ∈ bins, ∃ c m, statFS (chmodBins fs ip bins) (ip ++ binSegs b)
      = some (FNode.file c m) ∧ m &&& execBits ≠ 0 := by
  induction bins with
  | nil =>
    intro fs _ b hb
    cases hb
  | cons b0 tl ih =>
    intro fs hall b hb
    have hstep : ∀ b' ∈ tl, ∃ c m,
        statFS (chmodStep ip fs b0) (ip ++ binSegs b') = some (FNode.file c m) := by
      intro b' hb'
      obtain ⟨c, m, hcm⟩ := hall b' (List.mem_cons_of_mem _ hb')
      exact chmodStep_file ip fs b0 _ c m hcm
    rcases List.mem_cons.mp hb with he | htl
    · subst he
      obtain ⟨c, m, hcm⟩ := hall b (List.mem_cons_self _ _)
      show ∃ c' m', statFS (List.foldl (chmodStep ip) (chmodStep ip fs b) tl)
        (ip ++ binSegs b) = some (FNode.file c' m') ∧ m' &&& execBits ≠ 0
      by_cases hz : m &&& execBits = 0
      · have hstep0 : statFS (chmodStep ip fs b) (ip ++ binSegs b)
            = some (FNode.file c (m ||| execBits)) := by
          simp only [chmodStep, hcm, if_pos hz]
          exact statFS_updateFS_self fs _ _ _ hcm
        exact ⟨c, m ||| execBits,
          chmodBins_preserves_execfile ip tl _ _ c _ hstep0 (exec_lor_ne_zero m),
          exec_lor_ne_zero m⟩
      · have hstep0 : statFS (chmodStep ip fs b) (ip ++ binSegs b)
            = some (FNode.file c m) := by
          simp only [chmodStep, hcm, if_neg hz]
        exact ⟨c, m, chmodBins_preserves_execfile ip tl _ _ c _ hstep0 hz, hz⟩
    · show ∃ c' m', statFS (List.foldl (chmodStep ip) (chmodStep ip fs b0) tl)
        (ip ++ binSegs b) = some (FNode.file c' m') ∧ m' &&& execBits ≠ 0
      exact ih (chmodStep ip fs b0) hstep b htl

/-- C8: on a POSIX target, when the version/platform validate, every declared
binary exists as a file under the detected package root, the extract tree and
the install path are disjoint, nothing exists at or under the install path
yet, and the filesystem is ancestor-closed, Install succeeds; the returned
path is the deterministic install path built from the nori root and the
(package name, version, platform tag) key, and afterwards every declared
binary under the returned path is a file with its executable permission bits
set — whether or not the archive preserved them (the initial modes are
arbitrary). -/
theorem install_execBits (fs : FS) (m : ManifestM) (version platformTag : Str)
    (extractDir noriRoot : SegPath)
    (hvalid : ValidateVersionM m version platformTag = Except.ok ())
    (hwf : ∀ q ∈ keysFS fs, ∀ k, k < q.length → 0 < k → q.take k ∈ keysFS fs)
    (hbins : ∀ b ∈ m.bins, ∃ c md,
      statFS fs (DetectRootFS fs extractDir ++ binSegs b) = some (FNode.file c md))
    (hbne : ∀ b ∈ m.bins, binSegs b ≠ [])
    (hsd : ¬ DetectRootFS fs extractDir <+:
      installPathSegs noriRoot m.name version platformTag)
    (hds : ¬ installPathSegs noriRoot m.name version platformTag <+:
      DetectRootFS fs extractDir)
    (hfresh : ∀ q ∈ keysFS fs,
      ¬ installPathSegs noriRoot m.name version platformTag <+: q) :
    ∃ fs', InstallGo fs m version platformTag extractDir noriRoot =
        (Except.ok (noriRoot ++ ["installs".toList, m.name, version, platformTag]), fs') ∧
      ∀ b ∈ m.bins, ∃ c md,
        statFS fs' ((noriRoot ++ ["installs".toList, m.name, version, platformTag])
          ++ binSegs b) = some (FNode.file c md) ∧ md &&& execBits ≠ 0 := by
  have hnone : firstMissing fs (DetectRootFS fs extractDir) m.bins = none := by
    rw [firstMissing, List.find?_eq_none]
    intro b hb
    obtain ⟨c, md, hcm⟩ := hbins b hb
    simp [hcm]
  have hstat2 : ∀ b ∈ m.bins, ∃ c md,
      statFS (moveContentsFS (mkdirAllFS fs (installPathSegs noriRoot m.name version
        platformTag)) (DetectRootFS fs extractDir)
        (installPathSegs noriRoot m.name version platformTag))
        (installPathSegs noriRoot m.name version platformTag ++ binSegs b)
        = some (FNode.file c md) := by
    intro b hb
    obtain ⟨c, md, hcm⟩ := hbins b hb
    obtain ⟨e, r', hbr⟩ : ∃ e r', binSegs b = e :: r' := by
      cases hbseg : binSegs b with
      | nil => exact absurd hbseg (hbne b hb)
      | cons e r' => exact ⟨e, r', rfl⟩
    have hkey : DetectRootFS fs extractDir ++ [e] ∈ keysFS fs := by
      have hmemk : DetectRootFS fs extractDir ++ binSegs b ∈ keysFS fs :=
        mem_keys_of_statFS fs _ _ hcm
      cases r' with
      | nil =>
        rw [hbr] at hmemk
        exact hmemk
      | cons r0 rs =>
        have htake : (DetectRootFS fs extractDir ++ binSegs b).take
            ((DetectRootFS fs extractDir).length + 1)
            = DetectRootFS fs extractDir ++ [e] := by
          rw [hbr, List.take_append 1]
          rfl
        rw [← htake]
        apply hwf _ hmemk
        · rw [hbr]
          simp
        · omega
    have hsome := statFS_isSome_of_mem_keys fs _ hkey
    obtain ⟨n0, hn0⟩ := Option.isSome_iff_exists.mp hsome
    have hkey1 : statFS (mkdirAllFS fs (installPathSegs noriRoot m.name version
        platformTag)) (DetectRootFS fs extractDir ++ [e]) = some n0 :=
      statFS_mkdirAll_of_some fs _ _ n0 hn0
    have hchild : e ∈ readDirNamesFS (mkdirAllFS fs (installPathSegs noriRoot m.name
        version platformTag)) (DetectRootFS fs extractDir) :=
      mem_readDirNames _ _ e n0 hkey1
    have hstat1 : statFS (mkdirAllFS fs (installPathSegs noriRoot m.name version
        platformTag)) (DetectRootFS fs extractDir ++ e :: r')
        = some (FNode.file c md) := by
      rw [← hbr]
      exact statFS_mkdirAll_of_some fs _ _ _ hcm
    have hinv1 : ∀ q ∈ keysFS (mkdirAllFS fs (installPathSegs noriRoot m.name version
        platformTag)), installPathSegs noriRoot m.name version platformTag <+: q →
        q = installPathSegs noriRoot m.name version platformTag := by
      intro q hq hd
      rcases keysFS_mkdirAll fs _ q hq with h1 | h2
      · exact absurd hd (hfresh q h1)
      · exact prefix_antisymm h2 hd
    refine ⟨c, md, ?_⟩
    rw [hbr]
    exact moveContents_stat _ _ _ e r' _ hsd hds hstat1 hchild hinv1
  refine ⟨chmodBins (moveContentsFS (mkdirAllFS fs (installPathSegs noriRoot m.name
    version platformTag)) (DetectRootFS fs extractDir)
    (installPathSegs noriRoot m.name version platformTag))
    (installPathSegs noriRoot m.name version platformTag) m.bins, ?_, ?_⟩
  · simp only [InstallGo, hvalid, hnone]
    rfl
  · intro b hb
    exact chmodBins_exec (installPathSegs noriRoot m.name version platformTag) m.bins
      _ hstat2 b hb

theorem install_execBits_witness :
    ValidateVersionM demoMf "1.0.0".toList "linux-amd64".toList = Except.ok () ∧
    ∃ fs', InstallGo demoFs demoMf "1.0.0".toList "linux-amd64".toList demoXdir demoNroot =
        (Except.ok (demoNroot ++ ["installs".toList, demoMf.name, "1.0.0".toList,
          "linux-amd64".toList]), fs') ∧
      ∀ b ∈ demoMf.bins, ∃ c md,
        statFS fs' ((demoNroot ++ ["installs".toList, demoMf.name, "1.0.0".toList,
          "linux-amd64".toList]) ++ binSegs b) = some (FNode.file c md) ∧
        md &&& execBits ≠ 0 :=
  ⟨rfl,
    install_execBits demoFs demoMf "1.0.0".toList "linux-amd64".toList demoXdir demoNroot
      (by rfl) (by decide)
      (by
        intro b hb
        rw [List.mem_singleton.mp hb]
        exact ⟨"ELF".toList, 420, by decide⟩)
      (by decide) (by decide) (by decide) (by decide)⟩
